import Mathlib

/-!
Verification of the `col` language pipeline (lexer, parser, scope analyzer,
IR lowering) against its natural-language specification.

The Lean definitions below are a shallow embedding of the Rust sources:

* `src/token.rs`                            — the logos lexer (token kinds, skip rules,
                                              maximal-munch token selection);
* `src/parser.rs`                           — the chumsky recursive-descent parser
                                              (`program_parser`, `expr_parser`), modeled as
                                              fueled PEG-style functions over token lists;
* `src/parser/expr.rs`, `src/parser/stmt.rs` — the AST;
* `src/parser/visitor/symbol_table_builder.rs` — the scope analyzer;
* `src/codegen/ir_generator_visit_expr.rs`,
  `src/codegen/ir_generator/visit_stmt.rs`,
  `src/codegen/ir_generator/ir_helpers.rs`  — the IR lowering pass.  SSA values are
  modeled by the runtime values the emitted instructions compute; LLVM `f64` values
  are modeled as `F64` (a rational number or NaN), which is exact for the IEEE
  comparison predicates (`OEQ`, `ONE`, ...) and for the small-integer arithmetic
  exercised here (no rounding, overflow or infinity behavior is relied upon by
  any theorem in this file).
-/

namespace Col

/-- Model of an LLVM `f64` value: either NaN or a (finite) numeric value,
represented exactly as a rational.  Signed zeros, infinities and rounding are
not distinguished — no definition or theorem below depends on them. -/
inductive F64 where
  | nan : F64
  | val (q : ℚ) : F64
deriving DecidableEq, Repr

namespace F64

/-- IEEE addition (`fadd`); NaN propagates. -/
def add : F64 → F64 → F64
  | val a, val b => val (a + b)
  | _, _ => nan

/-- IEEE subtraction (`fsub`); NaN propagates. -/
def sub : F64 → F64 → F64
  | val a, val b => val (a - b)
  | _, _ => nan

/-- IEEE multiplication (`fmul`); NaN propagates. -/
def mul : F64 → F64 → F64
  | val a, val b => val (a * b)
  | _, _ => nan

/-- IEEE division (`fdiv`); NaN propagates.  Division by zero yields ±∞ in
IEEE, which this model collapses to NaN; no theorem exercises it. -/
def div : F64 → F64 → F64
  | val a, val b => if b = 0 then nan else val (a / b)
  | _, _ => nan

/-- Truncation toward zero, used to model `fptosi`.  (`fptosi` on NaN or an
out-of-range value is poison in LLVM; the model returns 0 there, and no
theorem exercises that case.) -/
def toInt : F64 → Int
  | nan => 0
  | val q => q.num.tdiv (q.den : Int)

/-- IEEE remainder (`frem`): `a - (trunc (a / b)) * b`; NaN propagates and a
zero divisor yields NaN. -/
def rem : F64 → F64 → F64
  | val a, val b => if b = 0 then nan else val (a - ((val (a / b)).toInt : ℚ) * b)
  | _, _ => nan

/-- Ordered equal (`fcmp oeq`): false if either operand is NaN. -/
def oeq : F64 → F64 → Bool
  | val a, val b => a = b
  | _, _ => false

/-- Ordered not-equal (`fcmp one`): false if either operand is NaN. -/
def one : F64 → F64 → Bool
  | val a, val b => a ≠ b
  | _, _ => false

/-- Ordered less-than (`fcmp olt`). -/
def olt : F64 → F64 → Bool
  | val a, val b => a < b
  | _, _ => false

/-- Ordered less-or-equal (`fcmp ole`). -/
def ole : F64 → F64 → Bool
  | val a, val b => a ≤ b
  | _, _ => false

/-- Ordered greater-than (`fcmp ogt`). -/
def ogt : F64 → F64 → Bool
  | val a, val b => a > b
  | _, _ => false

/-- Ordered greater-or-equal (`fcmp oge`). -/
def oge : F64 → F64 → Bool
  | val a, val b => a ≥ b
  | _, _ => false

/-- IEEE negation (`fneg`). -/
def neg : F64 → F64
  | val a => val (-a)
  | nan => nan

end F64

/-- Model of an LLVM SSA value of the types the lowering produces
(`BasicValueEnum` restricted to what `TypeMapping` provides): `f64` floats,
`i1` booleans, `i32` integers, and opaque pointers (string constants are
non-null, the `null` literal is the null pointer).  `i32` arithmetic is
modeled on unbounded `Int`; no theorem involves values near 2^31, where the
two's-complement wrap-around would matter. -/
inductive Val where
  | float (x : F64)
  | bool (b : Bool)
  | int (n : Int)
  | ptr (isNull : Bool)
deriving DecidableEq, Repr

/-- Error type of the IR generator (`IRGenError` in `ir_generator.rs`). -/
inductive IRGenError where
  | UndefinedVariable (name : String)
  | UndefinedFunction (name : String)
  | TypeMismatch (msg : String)
  | InvalidOperation (msg : String)
deriving DecidableEq, Repr

abbrev IRGenResult (α : Type) := Except IRGenError α

/-- Binary operation kinds (`BinaryOp` in `ir_generator_visit_expr.rs`). -/
inductive BinaryOp where
  | Add | Sub | Mul | Div | Mod
  | Eq | Ne | Lt | Le | Gt | Ge
  | And | Or | Xor
  | BitAnd | BitOr | BitXor
deriving DecidableEq, Repr

/-- Is this op one of the five arithmetic ops?  Mirrors the
`matches!(op, Add | Sub | Mul | Div | Mod)` test in `gen_binary_op`. -/
def BinaryOp.isArith : BinaryOp → Bool
  | .Add | .Sub | .Mul | .Div | .Mod => true
  | _ => false

/-- The signed value of an `i1` (LLVM sign-extends `i1 1` to `-1`), used for
the signed comparison predicates on booleans. -/
def boolSigned (b : Bool) : Int := if b then -1 else 0

/-- The `i1` → `f64` conversion the lowering emits: a `select` between the
constants `1.0` and `0.0` (`build_select(v, 1.0, 0.0, "bool_to_float")`). -/
def boolToFloat (b : Bool) : F64 := if b then .val 1 else .val 0

/-- The float × float table of `gen_binary_op`
(`ir_generator_visit_expr.rs` lines 405-493): float ops directly;
comparisons are the ordered (`O..`) predicates; the three bitwise ops
convert to `i32`, operate, and convert back; `And`/`Or`/`Xor` fall into the
`_ =>` arm and are an `InvalidOperation("Unsupported float operation: ..")`
error. -/
def gen_binary_op_floats (op : BinaryOp) (l r : F64) : IRGenResult Val :=
  match op with
  | .Add => .ok (.float (l.add r))
  | .Sub => .ok (.float (l.sub r))
  | .Mul => .ok (.float (l.mul r))
  | .Div => .ok (.float (l.div r))
  | .Mod => .ok (.float (l.rem r))
  | .Eq => .ok (.bool (l.oeq r))
  | .Ne => .ok (.bool (l.one r))
  | .Lt => .ok (.bool (l.olt r))
  | .Le => .ok (.bool (l.ole r))
  | .Gt => .ok (.bool (l.ogt r))
  | .Ge => .ok (.bool (l.oge r))
  | .BitAnd => .ok (.float (.val ((Int.land l.toInt r.toInt : Int) : ℚ)))
  | .BitOr => .ok (.float (.val ((Int.lor l.toInt r.toInt : Int) : ℚ)))
  | .BitXor => .ok (.float (.val ((Int.xor l.toInt r.toInt : Int) : ℚ)))
  | .And => .error (.InvalidOperation "Unsupported float operation: And")
  | .Or => .error (.InvalidOperation "Unsupported float operation: Or")
  | .Xor => .error (.InvalidOperation "Unsupported float operation: Xor")

/-- `gen_binary_op` from `src/codegen/ir_generator_visit_expr.rs`
(lines 398-679), modeled on runtime values.

* float × float: the float table above.
* int × int (which includes `i1`): if either side is of boolean type and the
  op is arithmetic, each side is converted to `f64` (`i1` via a 1.0/0.0
  select, other ints via `sitofp`) and the Rust recurses with two floats —
  which immediately lands in the float table, called directly here.
  Otherwise the integer op is emitted directly.  An integer op on mismatched
  widths (`i1` × `i32`) cannot be built by LLVM; it is modeled as the
  builder-failure error the Rust maps such failures to.
* int × float and float × int promote the integer side the same way and
  land in the float table.
* anything else (pointers) is a `TypeMismatch`. -/
def gen_binary_op : BinaryOp → Val → Val → IRGenResult Val
  | op, .float l, .float r => gen_binary_op_floats op l r
  | op, .bool l, .bool r =>
    if op.isArith then
      gen_binary_op_floats op (boolToFloat l) (boolToFloat r)
    else
      match op with
      | .Eq => .ok (.bool (l == r))
      | .Ne => .ok (.bool (l != r))
      | .Lt => .ok (.bool (decide (boolSigned l < boolSigned r)))
      | .Le => .ok (.bool (decide (boolSigned l ≤ boolSigned r)))
      | .Gt => .ok (.bool (decide (boolSigned l > boolSigned r)))
      | .Ge => .ok (.bool (decide (boolSigned l ≥ boolSigned r)))
      | .And | .BitAnd => .ok (.bool (l && r))
      | .Or | .BitOr => .ok (.bool (l || r))
      | .Xor | .BitXor => .ok (.bool (xor l r))
      | _ => .error (.InvalidOperation "Int operation failed")
  | op, .bool l, .int r =>
    if op.isArith then
      gen_binary_op_floats op (boolToFloat l) (.val (r : ℚ))
    else
      .error (.InvalidOperation "Int operation failed")
  | op, .int l, .bool r =>
    if op.isArith then
      gen_binary_op_floats op (.val (l : ℚ)) (boolToFloat r)
    else
      .error (.InvalidOperation "Int operation failed")
  | op, .int l, .int r =>
    match op with
    | .Add => .ok (.int (l + r))
    | .Sub => .ok (.int (l - r))
    | .Mul => .ok (.int (l * r))
    | .Div => .ok (.int (l.tdiv r))
    | .Mod => .ok (.int (l.tmod r))
    | .Eq => .ok (.bool (l == r))
    | .Ne => .ok (.bool (l != r))
    | .Lt => .ok (.bool (decide (l < r)))
    | .Le => .ok (.bool (decide (l ≤ r)))
    | .Gt => .ok (.bool (decide (l > r)))
    | .Ge => .ok (.bool (decide (l ≥ r)))
    | .And | .BitAnd => .ok (.int (Int.land l r))
    | .Or | .BitOr => .ok (.int (Int.lor l r))
    | .Xor | .BitXor => .ok (.int (Int.xor l r))
  | op, .bool l, .float r => gen_binary_op_floats op (boolToFloat l) r
  | op, .int l, .float r => gen_binary_op_floats op (.val (l : ℚ)) r
  | op, .float l, .bool r => gen_binary_op_floats op l (boolToFloat r)
  | op, .float l, .int r => gen_binary_op_floats op l (.val (r : ℚ))
  | _, .ptr _, _ => .error (.TypeMismatch "Incompatible types for binary operation")
  | _, _, .ptr _ => .error (.TypeMismatch "Incompatible types for binary operation")

/-- `convert_to_bool` from `src/codegen/ir_generator/ir_helpers.rs`
(lines 82-129): identity on `i1`, `!= 0` on other ints, ordered `!= 0.0` on
`f64`, `!= null` on pointers. -/
def convert_to_bool : Val → IRGenResult Bool
  | .bool b => .ok b
  | .int n => .ok (n != 0)
  | .float x => .ok (x.one (.val 0))
  | .ptr isNull => .ok (!isNull)

/-- `convert_to_return_type` from `src/codegen/ir_generator/ir_helpers.rs`
(lines 149-176): an `i1` value is mapped through
`select(v, 1.0, 0.0, "bool_to_double")`; every other value is unchanged. -/
def convert_to_return_type : Val → Val
  | .bool b => .float (boolToFloat b)
  | v => v

/-- The branch decision computed by the condition block of
`generate_do_until_loop` (`src/codegen/ir_generator/visit_stmt.rs`, lines
283-335): `true` means branch back to the body (continue the loop).

* integer condition (`i1` or wider): coerce to `i1` (identity resp. `!= 0`)
  and then `build_not` — continue iff the coerced condition is false;
* float condition: a single `fcmp oeq v, 0.0` is emitted — continue iff the
  condition is (ordered-)equal to `0.0`;
* any other type: `TypeMismatch("Invalid condition type")`. -/
def do_until_branch_to_body : Val → IRGenResult Bool
  | .bool b => .ok (!b)
  | .int n => .ok (!(n != 0))
  | .float x => .ok (x.oeq (.val 0))
  | .ptr _ => .error (.TypeMismatch "Invalid condition type")

/-- The branch decision claimed by the spec for `do .. until`: coerce the raw
condition to `i1` exactly as `convert_to_bool` does and then logically negate
it ("the loop continues exactly when the coerced condition is false").
This definition follows the spec's words; `do_until_branch_to_body` above
follows the code.  They are compared in the C3 theorems. -/
def spec_do_until_branch_to_body (v : Val) : IRGenResult Bool := do
  let b ← convert_to_bool v
  pure (!b)

/-! ## The AST (`src/parser/expr.rs`, `src/parser/stmt.rs`, `src/parser/program.rs`) -/

/-- `Expr` from `src/parser/expr.rs`.  Number literals carry the exact
decimal value of the lexeme (the Rust stores the nearest `f64`; every literal
appearing in a theorem below is exactly representable). -/
inductive Expr where
  | Number (n : ℚ)
  | String (s : String)
  | True (b : Bool)
  | False (b : Bool)
  | Null
  | Identifier (name : String)
  | Call (name : String) (args : List Expr)
  | Addition (l r : Expr)
  | Subtraction (l r : Expr)
  | Multiplication (l r : Expr)
  | Division (l r : Expr)
  | Percent (l r : Expr)
  | Not (e : Expr)
  | BitNot (e : Expr)
  | Positive (e : Expr)
  | Negative (e : Expr)
  | Paren (e : Expr)
  | Greater (l r : Expr)
  | GreaterEqual (l r : Expr)
  | Less (l r : Expr)
  | LessEqual (l r : Expr)
  | EqualEqual (l r : Expr)
  | NotEqual (l r : Expr)
  | BitAnd (l r : Expr)
  | BitXor (l r : Expr)
  | BitOr (l r : Expr)
  | And (l r : Expr)
  | Xor (l r : Expr)
  | Or (l r : Expr)
  | Ternary (cond t e : Expr)
  | Equal (l r : Expr)
  | PlusEqual (l r : Expr)
  | MinusEqual (l r : Expr)
  | StarEqual (l r : Expr)
  | SlashEqual (l r : Expr)
  | PercentEqual (l r : Expr)
  | PreIncrement (e : Expr)
  | PostIncrement (e : Expr)
  | PreDecrement (e : Expr)
  | PostDecrement (e : Expr)
deriving Repr

/-- `Stmt` from `src/parser/stmt.rs`. -/
inductive Stmt where
  | Expr (e : Expr)
  | Var (vars : List (String × Option Expr))
  | If (cond : Expr) (thenStmt : Stmt) (elseStmt : Option Stmt)
  | Block (stmts : List Stmt)
  | Return (e : Option Expr)
  | Break
  | Continue
  | Repeat (count : Expr) (body : Stmt)
  | While (cond : Expr) (body : Stmt)
  | DoUntil (body : Stmt) (cond : Expr)
  | For (init : Option Stmt) (cond : Option Expr) (update : Option Stmt) (body : Stmt)
deriving Repr

/-- `Func` from `src/parser/func.rs`: parameter names and a flat body. -/
structure Func where
  args : List String
  body : List Stmt
deriving Repr

/-- `FuncDef` from `src/parser/func_def.rs`. -/
structure FuncDef where
  name : String
  func : Func
deriving Repr

/-- `TopLevel` from `src/parser/top_level.rs`. -/
inductive TopLevel where
  | Statement (s : Stmt)
  | Function (f : FuncDef)
deriving Repr

/-- `Program` from `src/parser/program.rs`. -/
structure Program where
  body : List TopLevel
deriving Repr

/-- Is an expression an `Identifier` node?  (The test the lowering performs
on assignment and increment/decrement targets.) -/
def Expr.isIdentifier : Expr → Bool
  | .Identifier _ => true
  | _ => false

/-! ## Straight-line evaluation of the lowered IR

`IRGenerator` keeps a per-name map of stack slots (`variables`).  The
interpreter below threads that map with the current runtime value of each
slot and mirrors `visit_expr_impl` / `visit_stmt_impl` case by case: each
SSA value is represented by the runtime value it computes.  The model holds
the last value stored into a slot; re-reading a slot through a different
LLVM type than was last stored (raw stack reinterpretation in the real
code) is not modeled, and every theorem below stores and loads values of
one type per slot. -/

/-- The variable slots of the IR generator (`variables` +
`variable_types` in `ir_generator.rs`), with each slot holding its current
runtime value. -/
structure Locals where
  vars : List (String × Val)
deriving DecidableEq, Repr

/-- Association-list update with `HashMap::insert` semantics: replace the
binding if the key is present, append otherwise. -/
def updateAssoc {α : Type} : List (String × α) → String → α → List (String × α)
  | [], name, v => [(name, v)]
  | (k, w) :: rest, name, v =>
    if k = name then (k, v) :: rest else (k, w) :: updateAssoc rest name v

/-- Look up a slot. -/
def lookupVar (σ : Locals) (name : String) : Option Val :=
  (σ.vars.find? (fun p => p.1 == name)).map (·.2)

/-- `declare_variable` (`ir_helpers.rs` lines 32-44): create (or shadow) the
slot for `name`. -/
def declare_variable (name : String) (v : Val) (σ : Locals) : Locals :=
  ⟨updateAssoc σ.vars name v⟩

/-- `load_variable` (`ir_helpers.rs` lines 55-70): `UndefinedVariable` when
the name has no slot, otherwise the slot's value. -/
def load_variable (name : String) (σ : Locals) : IRGenResult Val :=
  match lookupVar σ name with
  | some v => .ok v
  | none => .error (.UndefinedVariable name)

/-- `store_variable` (`ir_helpers.rs` lines 73-79): `UndefinedVariable` when
the name has no slot, otherwise overwrite the slot. -/
def store_variable (name : String) (v : Val) (σ : Locals) : IRGenResult Locals :=
  match lookupVar σ name with
  | some _ => .ok ⟨updateAssoc σ.vars name v⟩
  | none => .error (.UndefinedVariable name)

/-- `visit_expr_impl` from `src/codegen/ir_generator_visit_expr.rs`, as the
runtime evaluation of the IR it emits.

Cases that build control flow (`&&`, `||`, ternary) are given their runtime
block semantics: the short-circuit operators evaluate the right operand only
when the left one does not decide the result (that is exactly what the
emitted conditional branch plus phi compute), and a ternary executes only
the taken branch, yielding that branch's value (the phi input).  A ternary
whose branches produce different types yields IR whose merge value does not
dominate its use when the else branch is taken; such programs fail LLVM
verification and are not modeled (no theorem exercises ternaries).

`Call` first resolves the callee via `get_function`; this interpreter
carries no registered functions, so the lookup fails exactly as the code
does with an empty `functions` table.  Call *lowering* itself is modeled
separately (`lower_call`). -/
def visit_expr_impl : Expr → Locals → IRGenResult (Val × Locals)
  | .Number n, σ => .ok (.float (.val n), σ)
  | .String _, σ => .ok (.ptr false, σ)
  | .True _, σ => .ok (.bool true, σ)
  | .False _, σ => .ok (.bool false, σ)
  | .Null, σ => .ok (.ptr true, σ)
  | .Identifier name, σ => do
    let v ← load_variable name σ
    pure (v, σ)
  | .Call name _, _ => .error (.UndefinedFunction name)
  | .Addition lhs rhs, σ => do
    let (l, σ1) ← visit_expr_impl lhs σ
    let (r, σ2) ← visit_expr_impl rhs σ1
    let v ← gen_binary_op .Add l r
    pure (v, σ2)
  | .Subtraction lhs rhs, σ => do
    let (l, σ1) ← visit_expr_impl lhs σ
    let (r, σ2) ← visit_expr_impl rhs σ1
    let v ← gen_binary_op .Sub l r
    pure (v, σ2)
  | .Multiplication lhs rhs, σ => do
    let (l, σ1) ← visit_expr_impl lhs σ
    let (r, σ2) ← visit_expr_impl rhs σ1
    let v ← gen_binary_op .Mul l r
    pure (v, σ2)
  | .Division lhs rhs, σ => do
    let (l, σ1) ← visit_expr_impl lhs σ
    let (r, σ2) ← visit_expr_impl rhs σ1
    let v ← gen_binary_op .Div l r
    pure (v, σ2)
  | .Percent lhs rhs, σ => do
    let (l, σ1) ← visit_expr_impl lhs σ
    let (r, σ2) ← visit_expr_impl rhs σ1
    let v ← gen_binary_op .Mod l r
    pure (v, σ2)
  | .EqualEqual lhs rhs, σ => do
    let (l, σ1) ← visit_expr_impl lhs σ
    let (r, σ2) ← visit_expr_impl rhs σ1
    let v ← gen_binary_op .Eq l r
    pure (v, σ2)
  | .NotEqual lhs rhs, σ => do
    let (l, σ1) ← visit_expr_impl lhs σ
    let (r, σ2) ← visit_expr_impl rhs σ1
    let v ← gen_binary_op .Ne l r
    pure (v, σ2)
  | .Less lhs rhs, σ => do
    let (l, σ1) ← visit_expr_impl lhs σ
    let (r, σ2) ← visit_expr_impl rhs σ1
    let v ← gen_binary_op .Lt l r
    pure (v, σ2)
  | .LessEqual lhs rhs, σ => do
    let (l, σ1) ← visit_expr_impl lhs σ
    let (r, σ2) ← visit_expr_impl rhs σ1
    let v ← gen_binary_op .Le l r
    pure (v, σ2)
  | .Greater lhs rhs, σ => do
    let (l, σ1) ← visit_expr_impl lhs σ
    let (r, σ2) ← visit_expr_impl rhs σ1
    let v ← gen_binary_op .Gt l r
    pure (v, σ2)
  | .GreaterEqual lhs rhs, σ => do
    let (l, σ1) ← visit_expr_impl lhs σ
    let (r, σ2) ← visit_expr_impl rhs σ1
    let v ← gen_binary_op .Ge l r
    pure (v, σ2)
  | .And lhs rhs, σ => do
    let (lv, σ1) ← visit_expr_impl lhs σ
    let lb ← convert_to_bool lv
    if lb then do
      let (rv, σ2) ← visit_expr_impl rhs σ1
      let rb ← convert_to_bool rv
      pure (.bool rb, σ2)
    else
      pure (.bool false, σ1)
  | .Or lhs rhs, σ => do
    let (lv, σ1) ← visit_expr_impl lhs σ
    let lb ← convert_to_bool lv
    if lb then
      pure (.bool true, σ1)
    else do
      let (rv, σ2) ← visit_expr_impl rhs σ1
      let rb ← convert_to_bool rv
      pure (.bool rb, σ2)
  | .Xor lhs rhs, σ => do
    let (l, σ1) ← visit_expr_impl lhs σ
    let (r, σ2) ← visit_expr_impl rhs σ1
    let v ← gen_binary_op .Xor l r
    pure (v, σ2)
  | .Equal lhs rhs, σ =>
    match lhs with
    | .Identifier name => do
      let (v, σ1) ← visit_expr_impl rhs σ
      let σ2 ← store_variable name v σ1
      pure (v, σ2)
    | _ => .error (.InvalidOperation "Assignment target must be a variable")
  | .PlusEqual lhs rhs, σ =>
    match lhs with
    | .Identifier name => do
      let cur ← load_variable name σ
      let (rv, σ1) ← visit_expr_impl rhs σ
      let nv ← gen_binary_op .Add cur rv
      let σ2 ← store_variable name nv σ1
      pure (nv, σ2)
    | _ => .error (.InvalidOperation "Assignment target must be a variable")
  | .MinusEqual lhs rhs, σ =>
    match lhs with
    | .Identifier name => do
      let cur ← load_variable name σ
      let (rv, σ1) ← visit_expr_impl rhs σ
      let nv ← gen_binary_op .Sub cur rv
      let σ2 ← store_variable name nv σ1
      pure (nv, σ2)
    | _ => .error (.InvalidOperation "Assignment target must be a variable")
  | .StarEqual lhs rhs, σ =>
    match lhs with
    | .Identifier name => do
      let cur ← load_variable name σ
      let (rv, σ1) ← visit_expr_impl rhs σ
      let nv ← gen_binary_op .Mul cur rv
      let σ2 ← store_variable name nv σ1
      pure (nv, σ2)
    | _ => .error (.InvalidOperation "Assignment target must be a variable")
  | .SlashEqual lhs rhs, σ =>
    match lhs with
    | .Identifier name => do
      let cur ← load_variable name σ
      let (rv, σ1) ← visit_expr_impl rhs σ
      let nv ← gen_binary_op .Div cur rv
      let σ2 ← store_variable name nv σ1
      pure (nv, σ2)
    | _ => .error (.InvalidOperation "Assignment target must be a variable")
  | .PercentEqual lhs rhs, σ =>
    match lhs with
    | .Identifier name => do
      let cur ← load_variable name σ
      let (rv, σ1) ← visit_expr_impl rhs σ
      let nv ← gen_binary_op .Mod cur rv
      let σ2 ← store_variable name nv σ1
      pure (nv, σ2)
    | _ => .error (.InvalidOperation "Assignment target must be a variable")
  | .Not e, σ => do
    let (v, σ1) ← visit_expr_impl e σ
    let b ← convert_to_bool v
    pure (.bool (!b), σ1)
  | .Negative e, σ => do
    let (v, σ1) ← visit_expr_impl e σ
    match v with
    | .float x => pure (.float x.neg, σ1)
    | .int n => pure (.int (-n), σ1)
    | .bool b => pure (.bool b, σ1)
    | _ => .error (.TypeMismatch "Cannot negate non-numeric value")
  | .Positive e, σ => visit_expr_impl e σ
  | .PreIncrement e, σ =>
    match e with
    | .Identifier name => do
      let cur ← load_variable name σ
      let one : Val := .float (.val 1)
      let nv ← gen_binary_op .Add cur one
      let σ1 ← store_variable name nv σ
      pure (nv, σ1)
    | _ => .error (.InvalidOperation "Pre-increment only works on variables")
  | .PostIncrement e, σ =>
    match e with
    | .Identifier name => do
      let cur ← load_variable name σ
      let one : Val := .float (.val 1)
      let nv ← gen_binary_op .Add cur one
      let σ1 ← store_variable name nv σ
      pure (cur, σ1)
    | _ => .error (.InvalidOperation "Post-increment only works on variables")
  | .PreDecrement e, σ =>
    match e with
    | .Identifier name => do
      let cur ← load_variable name σ
      let one : Val := .float (.val 1)
      let nv ← gen_binary_op .Sub cur one
      let σ1 ← store_variable name nv σ
      pure (nv, σ1)
    | _ => .error (.InvalidOperation "Pre-decrement only works on variables")
  | .PostDecrement e, σ =>
    match e with
    | .Identifier name => do
      let cur ← load_variable name σ
      let one : Val := .float (.val 1)
      let nv ← gen_binary_op .Sub cur one
      let σ1 ← store_variable name nv σ
      pure (cur, σ1)
    | _ => .error (.InvalidOperation "Post-decrement only works on variables")
  | .Ternary cond tBranch eBranch, σ => do
    let (cv, σ1) ← visit_expr_impl cond σ
    let cb ← convert_to_bool cv
    if cb then visit_expr_impl tBranch σ1 else visit_expr_impl eBranch σ1
  | .Paren e, σ => visit_expr_impl e σ
  | .BitNot e, σ => do
    let (v, σ1) ← visit_expr_impl e σ
    match v with
    | .bool b => pure (.bool (!b), σ1)
    | .int n => pure (.int (-n - 1), σ1)
    | .float x => pure (.float (.val ((-x.toInt - 1 : Int) : ℚ)), σ1)
    | _ => .error (.TypeMismatch "Bitwise not only works on integers and numbers")
  | .BitAnd lhs rhs, σ => do
    let (l, σ1) ← visit_expr_impl lhs σ
    let (r, σ2) ← visit_expr_impl rhs σ1
    let v ← gen_binary_op .BitAnd l r
    pure (v, σ2)
  | .BitOr lhs rhs, σ => do
    let (l, σ1) ← visit_expr_impl lhs σ
    let (r, σ2) ← visit_expr_impl rhs σ1
    let v ← gen_binary_op .BitOr l r
    pure (v, σ2)
  | .BitXor lhs rhs, σ => do
    let (l, σ1) ← visit_expr_impl lhs σ
    let (r, σ2) ← visit_expr_impl rhs σ1
    let v ← gen_binary_op .BitXor l r
    pure (v, σ2)

/-- Outcome of executing one statement's lowered code: `normal v` means the
current block is still open and `v` is the statement's value; `returned v`
means a `ret v` terminator was emitted/executed; `unreachableEnd` means an
`unreachable` terminator was emitted (the lowering of `break`/`continue`). -/
inductive Flow where
  | normal (v : Val)
  | returned (v : Val)
  | unreachableEnd
deriving DecidableEq, Repr

/-- The `Stmt::Var` loop of `visit_stmt_impl` (`visit_stmt.rs` lines 10-29):
each declared name gets a fresh slot holding the initializer's value, or the
constant `0.0` when there is no initializer; the statement's value is the
last stored value (`0.0` for an empty list). -/
def exec_var_decls : List (String × Option Expr) → Locals → Val → IRGenResult (Val × Locals)
  | [], σ, last => .ok (last, σ)
  | (name, initExpr) :: rest, σ, _ => do
    let (v, σ1) ← match initExpr with
      | some e => visit_expr_impl e σ
      | none => pure (Val.float (.val 0), σ)
    exec_var_decls rest (declare_variable name v σ1) v

mutual

/-- `visit_stmt_impl` from `src/codegen/ir_generator/visit_stmt.rs`,
restricted to the straight-line statement forms (expression statements,
`var`, `return`, nested blocks, `break`/`continue`).  The branching and loop
forms build control-flow graphs whose per-construct condition logic is
modeled separately (`do_until_branch_to_body`); their full runtime execution
is outside this interpreter and is marked by an error value that no theorem
exercises. -/
def exec_stmt : Stmt → Locals → IRGenResult (Flow × Locals)
  | .Expr e, σ => do
    let (v, σ1) ← visit_expr_impl e σ
    pure (.normal v, σ1)
  | .Var vars, σ => do
    let (v, σ1) ← exec_var_decls vars σ (.float (.val 0))
    pure (.normal v, σ1)
  | .Return none, σ => .ok (.returned (.float (.val 0)), σ)
  | .Return (some e), σ => do
    let (v, σ1) ← visit_expr_impl e σ
    pure (.returned (convert_to_return_type v), σ1)
  | .Block stmts, σ => exec_stmts stmts σ (.float (.val 0))
  | .Break, σ => .ok (.unreachableEnd, σ)
  | .Continue, σ => .ok (.unreachableEnd, σ)
  | .If _ _ _, _ => .error (.InvalidOperation "If execution is not modeled")
  | .While _ _, _ => .error (.InvalidOperation "While execution is not modeled")
  | .DoUntil _ _, _ => .error (.InvalidOperation "DoUntil execution is not modeled")
  | .Repeat _ _, _ => .error (.InvalidOperation "Repeat execution is not modeled")
  | .For _ _ _ _, _ => .error (.InvalidOperation "For execution is not modeled")

/-- The block-visiting rule (`visit_stmt.rs` lines 135-148): run statements
in order; once a statement terminates the current block (return/unreachable)
the remaining statements are skipped. -/
def exec_stmts : List Stmt → Locals → Val → IRGenResult (Flow × Locals)
  | [], σ, last => .ok (.normal last, σ)
  | s :: rest, σ, _ => do
    let (f, σ1) ← exec_stmt s σ
    match f with
    | .normal v => exec_stmts rest σ1 v
    | other => .ok (other, σ1)

end

/-- The body loop of `visit_func_def` (`ir_generator.rs` lines 405-418): run
the body statements starting from an empty value; if the final block has no
terminator, `ret last_value` is emitted, so the function's return value is
the flow value either way.  A body ending in `unreachable` has no return
value at runtime. -/
def run_function_body (body : List Stmt) (σ : Locals) : IRGenResult Val := do
  let (f, _) ← exec_stmts body σ (.float (.val 0))
  match f with
  | .returned v => pure v
  | .normal v => pure v
  | .unreachableEnd => .error (.InvalidOperation "function body ends in unreachable")

/-! ## Call lowering (`Expr::Call` in `ir_generator_visit_expr.rs`) -/

/-- A registered function as the lowering sees it: its name and declared
parameter count (`FunctionValue` restricted to what call lowering could
observe). -/
structure FuncSig where
  name : String
  arity : Nat
deriving DecidableEq, Repr

/-- The `functions` table of `IRGenerator`. -/
abbrev FuncTable := List FuncSig

/-- `get_function` (`ir_generator_visit_expr.rs` lines 826-832):
`UndefinedFunction` when the name is not registered. -/
def get_function (functions : FuncTable) (name : String) : IRGenResult FuncSig :=
  match functions.find? (fun f => f.name == name) with
  | some f => .ok f
  | none => .error (.UndefinedFunction name)

/-- The call instruction the lowering emits: callee name plus the lowered
argument values, in order. -/
structure CallInst where
  callee : String
  args : List Val
deriving DecidableEq, Repr

/-- `Expr::Call` lowering (`ir_generator_visit_expr.rs` lines 42-72), with
the argument expressions already lowered to `argVals`: resolve the callee
via `get_function`, box the argument values into the builder's metadata
shape, and emit the call with exactly those arguments.  No comparison
against the callee's declared arity appears anywhere on this path. -/
def lower_call (functions : FuncTable) (name : String) (argVals : List Val) :
    IRGenResult CallInst := do
  let _fn ← get_function functions name
  pure { callee := name, args := argVals }

/-! ## The scope analyzer (`src/parser/visitor/symbol_table_builder.rs`)

The Rust builder holds a `&mut Scope` and mutates it (adding symbols to its
table, pushing child scopes); a sub-visitor receives a freshly pushed child
and mutates only that child.  This is modeled by pure functions
`Scope → Scope`: pushing a child and running the sub-visitor inside it is
building the child from `Scope.new` and appending it. -/

/-- `Symbol` from `symbol_table_builder.rs`. -/
inductive Symbol where
  | Variable
  | Function (parameters : List String)
deriving DecidableEq, Repr

/-- `Scope`: a symbol table plus ordered child scopes. -/
inductive Scope where
  | mk (table : List (String × Symbol)) (children : List Scope)
deriving Repr

/-- The symbol table of a scope. -/
def Scope.table : Scope → List (String × Symbol)
  | .mk t _ => t

/-- The ordered child scopes of a scope. -/
def Scope.children : Scope → List Scope
  | .mk _ c => c

/-- `Scope::new`. -/
def Scope.new : Scope := .mk [] []

/-- `add_symbol`: `HashMap::insert` into the current scope's table. -/
def Scope.add_symbol (s : Scope) (name : String) (sym : Symbol) : Scope :=
  .mk (updateAssoc s.table name sym) s.children

/-- `self.scope.children.push(Scope::new())` followed by running the
sub-visitor in the pushed child. -/
def Scope.pushChild (s : Scope) (child : Scope) : Scope :=
  .mk s.table (s.children ++ [child])

mutual

/-- `visit_expr` of `SymbolTableBuilder` (lines 161-217): it only recurses
into sub-expressions and neither records symbols nor pushes scopes. -/
def stb_visit_expr : Expr → Scope → Scope
  | .Call _ args, s => stb_visit_exprs args s
  | .Addition l r, s | .Subtraction l r, s | .Multiplication l r, s
  | .Division l r, s | .Percent l r, s
  | .Greater l r, s | .GreaterEqual l r, s | .Less l r, s | .LessEqual l r, s
  | .EqualEqual l r, s | .NotEqual l r, s
  | .BitAnd l r, s | .BitXor l r, s | .BitOr l r, s
  | .And l r, s | .Xor l r, s | .Or l r, s
  | .Equal l r, s | .PlusEqual l r, s | .MinusEqual l r, s
  | .StarEqual l r, s | .SlashEqual l r, s | .PercentEqual l r, s =>
    stb_visit_expr r (stb_visit_expr l s)
  | .Not e, s | .BitNot e, s | .Positive e, s | .Negative e, s | .Paren e, s
  | .PreIncrement e, s | .PostIncrement e, s
  | .PreDecrement e, s | .PostDecrement e, s =>
    stb_visit_expr e s
  | .Ternary cond tB eB, s =>
    stb_visit_expr eB (stb_visit_expr tB (stb_visit_expr cond s))
  | .Number _, s => s
  | .String _, s => s
  | .True _, s => s
  | .False _, s => s
  | .Null, s => s
  | .Identifier _, s => s

/-- Visit call arguments in order. -/
def stb_visit_exprs : List Expr → Scope → Scope
  | [], s => s
  | e :: rest, s => stb_visit_exprs rest (stb_visit_expr e s)

end

mutual

/-- `visit_stmt` of `SymbolTableBuilder` (lines 82-159). -/
def stb_visit_stmt : Stmt → Scope → Scope
  | .Expr e, s => stb_visit_expr e s
  | .Var vars, s => stb_visit_var_decls vars s
  | .If cond tS eS, s =>
    let s := stb_visit_expr cond s
    let s := s.pushChild (stb_visit_stmt tS Scope.new)
    match eS with
    | none => s
    | some e => s.pushChild (stb_visit_stmt e Scope.new)
  | .Block stmts, s => s.pushChild (stb_visit_stmts stmts Scope.new)
  | .Return none, s => s
  | .Return (some e), s => stb_visit_expr e s
  | .Break, s => s
  | .Continue, s => s
  | .Repeat count body, s =>
    let s := stb_visit_expr count s
    s.pushChild (stb_visit_stmt body Scope.new)
  | .While cond body, s =>
    let s := stb_visit_expr cond s
    s.pushChild (stb_visit_stmt body Scope.new)
  | .DoUntil body cond, s =>
    let s := s.pushChild (stb_visit_stmt body Scope.new)
    stb_visit_expr cond s
  | .For init cond update body, s =>
    -- one child scope containing the init, condition, update and body
    -- (`stb_for_prebody` below names this inner scope)
    s.pushChild (stb_visit_stmt body
      (let c := Scope.new
       let c := match init with | some i => stb_visit_stmt i c | none => c
       let c := match cond with | some e => stb_visit_expr e c | none => c
       match update with | some u => stb_visit_stmt u c | none => c))

/-- Visit a block's statements in order inside one scope. -/
def stb_visit_stmts : List Stmt → Scope → Scope
  | [], s => s
  | st :: rest, s => stb_visit_stmts rest (stb_visit_stmt st s)

/-- The `Stmt::Var` case: record each name as `Variable` in the current
scope, visiting initializer expressions as they are passed. -/
def stb_visit_var_decls : List (String × Option Expr) → Scope → Scope
  | [], s => s
  | (name, initE) :: rest, s =>
    let s := s.add_symbol name .Variable
    let s := match initE with | some e => stb_visit_expr e s | none => s
    stb_visit_var_decls rest s

end

/-- The fresh `for` scope after visiting the init, condition and update
clauses (the body is then visited in this same scope); definitionally the
inner scope built by the `For` case of `stb_visit_stmt`. -/
def stb_for_prebody (init : Option Stmt) (cond : Option Expr) (update : Option Stmt) : Scope :=
  let c := Scope.new
  let c := match init with | some i => stb_visit_stmt i c | none => c
  let c := match cond with | some e => stb_visit_expr e c | none => c
  match update with | some u => stb_visit_stmt u c | none => c

/-- `visit_func` (lines 71-80): push one child scope holding the parameters
as `Variable`s, then visit the body statements inside it. -/
def stb_visit_func (f : Func) (s : Scope) : Scope :=
  let child := f.args.foldl (fun c p => c.add_symbol p .Variable) Scope.new
  s.pushChild (stb_visit_stmts f.body child)

/-- `visit_func_def` (lines 61-69): record the function symbol in the
current scope, then recurse into the body scope. -/
def stb_visit_func_def (fd : FuncDef) (s : Scope) : Scope :=
  stb_visit_func fd.func (s.add_symbol fd.name (.Function fd.func.args))

/-- `visit_toplevel`. -/
def stb_visit_toplevel : TopLevel → Scope → Scope
  | .Statement st, s => stb_visit_stmt st s
  | .Function fd, s => stb_visit_func_def fd s

/-- `visit_program`: fold the top-level items into the root scope. -/
def stb_visit_program (p : Program) (s : Scope) : Scope :=
  p.body.foldl (fun s tl => stb_visit_toplevel tl s) s

/-- The child scopes a statement contributes to its enclosing scope, in
lexical order of the scope-opening constructs.  By `stb_children_spec`
(proved below) `stb_visit_stmt` appends exactly this list to the current
scope's children. -/
def scope_children_of : Stmt → List Scope
  | .If _ tS eS =>
    [stb_visit_stmt tS Scope.new] ++
      (match eS with | none => [] | some e => [stb_visit_stmt e Scope.new])
  | .Block stmts => [stb_visit_stmts stmts Scope.new]
  | .Repeat _ body => [stb_visit_stmt body Scope.new]
  | .While _ body => [stb_visit_stmt body Scope.new]
  | .DoUntil body _ => [stb_visit_stmt body Scope.new]
  | .For init cond update body =>
    [stb_visit_stmt body (stb_for_prebody init cond update)]
  | _ => []

/-! ## The lexer (`src/token.rs`)

`Token` is a logos-derived lexer: at each position the longest match over
all rules wins, explicit `#token` literals beat the `#regex` rules on ties
(this is what makes `while` a keyword and `whilex` an identifier, as the
repository's own `test_keywords` test records), skip rules (`[ \t]+`, line
comments, terminated block comments) discard their match, and input matched
by no rule produces a logos error, which `parse_source_code`
(`src/handler/parse_handler.rs` lines 18-29) converts into a `Token::Error`
carrying the span.  Spans are modeled in characters; they coincide with the
Rust byte spans on ASCII input, and no theorem depends on span arithmetic
for non-ASCII text. -/

/-- Token kinds (`Token` in `src/token.rs`), with lexeme-carrying variants
for identifiers, strings (quotes stripped) and number literals. -/
inductive Tok where
  | Error
  | Repeat | While | Do | Until | For | Switch | Break | Continue | Exit | With
  | Return | Begin | End | Try | Catch | Finally | Throw | New | Delete
  | Div | Mod
  | Var | GlobalVar | LocalVar | Function | Enum | Case | Default
  | True | False | Undefined | Null | Self_ | Other
  | AndWord | OrWord | NotWord | Global | All | Noone | Constructor | Static
  | If | Then | Else
  | Equal | PlusEqual | MinusEqual | StarEqual | SlashEqual | PercentEqual
  | And | Or | Xor
  | NullishEqual | Nullish
  | Less | LessEqual | EqualEqual | NotEqual | Greater | GreaterEqual
  | BitOr | BitAnd | BitXor | ShiftLeft | ShiftRight
  | Increment | Decrement | Plus | Minus | Star | Slash
  | Percent
  | Not | BitNot
  | Newline | Semicolon | Comma | Dot
  | LeftParen | RightParen | LeftBrace | RightBrace | LeftBracket | RightBracket
  | Question | Colon
  | Identifier (s : String)
  | String (s : String)
  | Number (s : String)
deriving Repr, BEq

/-- Source text as a character list. -/
abbrev Src := List Char

/-- First character of an identifier: `[A-Za-z_]`. -/
def isIdentStart (c : Char) : Bool := c.isAlpha || c == '_'

/-- Later characters of an identifier: `[A-Za-z0-9_]`. -/
def isIdentChar (c : Char) : Bool := c.isAlphanum || c == '_'

/-- All `#token` literals of `Token`, in declaration order: keywords,
then operators, then punctuation (`Newline` is a `#regex` rule and is
matched separately). -/
def litToks : List (String × Tok) := [
  ("repeat", Tok.Repeat), ("while", Tok.While), ("do", Tok.Do), ("until", Tok.Until), ("for", Tok.For),
  ("switch", Tok.Switch), ("break", Tok.Break), ("continue", Tok.Continue), ("exit", Tok.Exit),
  ("with", Tok.With), ("return", Tok.Return), ("begin", Tok.Begin), ("end", Tok.End), ("try", Tok.Try),
  ("catch", Tok.Catch), ("finally", Tok.Finally), ("throw", Tok.Throw), ("new", Tok.New),
  ("delete", Tok.Delete), ("div", Tok.Div), ("mod", Tok.Mod),
  ("var", Tok.Var), ("globalvar", Tok.GlobalVar), ("localvar", Tok.LocalVar),
  ("function", Tok.Function), ("enum", Tok.Enum), ("case", Tok.Case), ("default", Tok.Default),
  ("true", Tok.True), ("false", Tok.False), ("undefined", Tok.Undefined), ("null", Tok.Null),
  ("self", Tok.Self_), ("other", Tok.Other), ("and", Tok.AndWord), ("or", Tok.OrWord),
  ("not", Tok.NotWord), ("global", Tok.Global), ("all", Tok.All), ("noone", Tok.Noone),
  ("constructor", Tok.Constructor), ("static", Tok.Static),
  ("if", Tok.If), ("then", Tok.Then), ("else", Tok.Else),
  ("=", Tok.Equal), ("+=", Tok.PlusEqual), ("-=", Tok.MinusEqual), ("*=", Tok.StarEqual),
  ("/=", Tok.SlashEqual), ("%=", Tok.PercentEqual),
  ("&&", Tok.And), ("||", Tok.Or), ("^^", Tok.Xor),
  ("??=", Tok.NullishEqual), ("??", Tok.Nullish),
  ("<", Tok.Less), ("<=", Tok.LessEqual), ("==", Tok.EqualEqual), ("!=", Tok.NotEqual),
  (">", Tok.Greater), (">=", Tok.GreaterEqual),
  ("|", Tok.BitOr), ("&", Tok.BitAnd), ("^", Tok.BitXor), ("<<", Tok.ShiftLeft), (">>", Tok.ShiftRight),
  ("++", Tok.Increment), ("--", Tok.Decrement), ("+", Tok.Plus), ("-", Tok.Minus), ("*", Tok.Star),
  ("/", Tok.Slash), ("%", Tok.Percent), ("!", Tok.Not), ("~", Tok.BitNot),
  (";", Tok.Semicolon), (",", Tok.Comma), (".", Tok.Dot),
  ("(", Tok.LeftParen), (")", Tok.RightParen), ("\x7b", Tok.LeftBrace), ("\x7d", Tok.RightBrace),
  ("[", Tok.LeftBracket), ("]", .RightBracket), ("?", .Question), (":", .Colon)]

/-- Best literal match at the start of `cs`: the longest table entry whose
text is a prefix of `cs` (two distinct literals of equal length cannot both
be prefixes of the same input). -/
def matchLitAux : List (String × Tok) → Src → Option (Tok × Nat)
  | [], _ => none
  | (lit, t) :: rest, cs =>
    let r := matchLitAux rest cs
    if lit.toList.isPrefixOf cs then
      match r with
      | none => some (t, lit.toList.length)
      | some (t2, n2) =>
        if lit.toList.length ≥ n2 then some (t, lit.toList.length) else some (t2, n2)
    else r

/-- Longest `#token` literal matching at the start of `cs`. -/
def matchLit (cs : Src) : Option (Tok × Nat) := matchLitAux litToks cs

/-- The `Newline` rule `(?:\r\n|\n|\r)`. -/
def matchNewline : Src → Option (Tok × Nat)
  | '\r' :: '\n' :: _ => some (.Newline, 2)
  | '\n' :: _ => some (.Newline, 1)
  | '\r' :: _ => some (.Newline, 1)
  | _ => none

/-- The `Identifier` rule `[a-zA-Z_][a-zA-Z0-9_]{0,63}`: at most 64
characters of the identifier-character run are consumed. -/
def matchIdent (cs : Src) : Option (Tok × Nat) :=
  match cs with
  | c :: _ =>
    if isIdentStart c then
      let n := min 64 (cs.takeWhile isIdentChar).length
      some (.Identifier (String.mk (cs.take n)), n)
    else none
  | [] => none

/-- The `String` rule `"[^"\n]*"`; the lexeme excludes the quotes. -/
def matchStringLit : Src → Option (Tok × Nat)
  | '"' :: rest =>
    let body := rest.takeWhile (fun c => !(c == '"') && !(c == '\n'))
    match rest.drop body.length with
    | '"' :: _ => some (.String (String.mk body), body.length + 2)
    | _ => none
  | _ => none

/-- The `Number` rule `\d+(\.\d+)?`. -/
def matchNumber (cs : Src) : Option (Tok × Nat) :=
  match cs with
  | c :: _ =>
    if c.isDigit then
      let intLen := (cs.takeWhile Char.isDigit).length
      let n :=
        match cs.drop intLen with
        | '.' :: d :: _ =>
          if d.isDigit then
            intLen + 1 + ((cs.drop (intLen + 1)).takeWhile Char.isDigit).length
          else intLen
        | _ => intLen
      some (.Number (String.mk (cs.take n)), n)
    else none
  | [] => none

/-- Longest-match selection: keep the earlier candidate unless the later one
is strictly longer (so on equal lengths the earlier-listed rule wins). -/
def pickBest : Option (Tok × Nat) → Option (Tok × Nat) → Option (Tok × Nat)
  | none, c => c
  | some a, none => some a
  | some a, some b => if b.2 > a.2 then some b else some a

/-- The token match at the start of `cs`: longest match over all token
rules, `#token` literals winning ties (listed first). -/
def nextToken (cs : Src) : Option (Tok × Nat) :=
  pickBest
    (pickBest (pickBest (pickBest (matchLit cs) (matchNewline cs)) (matchIdent cs))
      (matchStringLit cs))
    (matchNumber cs)

/-- Length of the first `*/`-terminated prefix (the tail of a block
comment); `none` when the comment is unterminated, in which case the skip
rule does not apply (the regex `/\*([^*]|\*[^/])*\*/` requires the
terminator). -/
def blockCommentLen : Src → Option Nat
  | '*' :: '/' :: _ => some 2
  | _ :: rest => (blockCommentLen rest).map (· + 1)
  | [] => none

/-- The three `#logos(skip ..)` rules: runs of spaces/tabs, line comments
`//[^\n]*`, and terminated block comments.  Wherever one of these matches,
its match is strictly longer than any token match at the same position
(space/tab start no token; `//...` and `/*...*/` are longer than `/` and
`/=`), so skips are tested first. -/
def skipLen (cs : Src) : Option Nat :=
  match cs with
  | ' ' :: _ | '\t' :: _ => some (cs.takeWhile (fun c => c == ' ' || c == '\t')).length
  | '/' :: '/' :: rest => some (2 + (rest.takeWhile (fun c => !(c == '\n'))).length)
  | '/' :: '*' :: rest => (blockCommentLen rest).map (2 + ·)
  | _ => none

/-- The lexer loop combined with the error mapping of `parse_source_code`
(`parse_handler.rs` lines 18-26): skip matches are discarded, token matches
are emitted with their spans, and a position where no rule matches produces
an `Error` token over that character (logos yields `Err` there, which the
handler converts to `Token::Error` with the span).  Every step consumes at
least one character, so fuel equal to the input length suffices. -/
def lexAux : Nat → Nat → Src → List (Tok × Nat × Nat)
  | 0, _, _ => []
  | fuel + 1, off, cs =>
    match cs with
    | [] => []
    | _ :: rest =>
      match skipLen cs with
      | some n => lexAux fuel (off + n) (cs.drop n)
      | none =>
        match nextToken cs with
        | some (t, n) => (t, off, off + n) :: lexAux fuel (off + n) (cs.drop n)
        | none => (.Error, off, off + 1) :: lexAux fuel (off + 1) rest

/-- Lex a whole source text into `(token, span)` pairs. -/
def lexAll (s : Src) : List (Tok × Nat × Nat) := lexAux s.length 0 s

/-- The token stream handed to the parser (spans dropped). -/
def lexTokens (s : String) : List Tok := (lexAll s.toList).map (·.1)

/-- Value of a number lexeme `\d+(\.\d+)?` (the Rust parses it with
`str::parse::<f64>`; the exact decimal value is used here, which agrees with
the nearest-double value for every literal a theorem mentions). -/
def digitsToNat (ds : List Char) : Nat :=
  ds.foldl (fun acc c => acc * 10 + (c.toNat - '0'.toNat)) 0

/-- Parse a number lexeme into its exact decimal value. -/
def lexemeToRat (s : String) : ℚ :=
  let cs := s.toList
  let intPart := cs.takeWhile Char.isDigit
  match cs.drop intPart.length with
  | '.' :: frac => (digitsToNat intPart : ℚ) + (digitsToNat frac : ℚ) / ((10 : ℚ) ^ frac.length)
  | _ => (digitsToNat intPart : ℚ)

/-! ## The parser (`src/parser.rs`)

`program_parser`/`expr_parser` are chumsky combinators: ordered choice with
full backtracking (a failed alternative rewinds the input), `or_not`
yielding `none` on inner failure, and `recover_with(skip_then_retry_until
(any, end))` at the top level (record the error, skip one token, retry).
They are modeled as fueled functions `Nat → List Tok → Option (α × List
Tok)`; `none` is parse failure with the input rewound.  Fuel strictly
decreases on every call and is chosen generously at the entry point
(`parseProgram`); every grammar production consumes at least one token, so
the fuel bound is never reached. -/

/-- `terminator -> (";" | NEWLINE)+`: greedily consume the remaining
terminator tokens after the first. -/
def skipTerms : List Tok → List Tok
  | Tok.Semicolon :: rest => skipTerms rest
  | Tok.Newline :: rest => skipTerms rest
  | ts => ts

/-- The `terminator` parser: at least one `;` or newline. -/
def parseTerminator : List Tok → Option (List Tok)
  | Tok.Semicolon :: rest => some (skipTerms rest)
  | Tok.Newline :: rest => some (skipTerms rest)
  | _ => none

/-- `just(Token::Newline).repeated()`: discard any newlines. -/
def skipNewlines : List Tok → List Tok
  | Tok.Newline :: rest => skipNewlines rest
  | ts => ts

mutual

/-- The `atom` alternatives of `expr_parser` (lines 373-397), in choice
order: number, string, `true`, `false`, `null`, call, lone identifier,
parenthesized expression.  A failed call alternative (identifier not
followed by a well-formed argument list) backtracks to the lone-identifier
alternative. -/
def parseAtom : Nat → List Tok → Option (Expr × List Tok)
  | 0, _ => none
  | f + 1, ts =>
    match ts with
    | Tok.Number x :: rest => some (.Number (lexemeToRat x), rest)
    | Tok.String x :: rest => some (.String x, rest)
    | Tok.True :: rest => some (.True true, rest)
    | Tok.False :: rest => some (.False false, rest)
    | Tok.Null :: rest => some (.Null, rest)
    | Tok.Identifier name :: rest =>
      match rest with
      | Tok.LeftParen :: rest2 =>
        match parseCallArgs f rest2 with
        | some (args, rest3) => some (.Call name args, rest3)
        | none => some (.Identifier name, rest)
      | _ => some (.Identifier name, rest)
    | Tok.LeftParen :: rest =>
      match parseExprF f rest with
      | some (e, Tok.RightParen :: rest2) => some (.Paren e, rest2)
      | _ => none
    | _ => none

/-- Call argument list after the `(`: expressions separated by commas,
trailing comma allowed, zero arguments allowed, closed by `)`. -/
def parseCallArgs : Nat → List Tok → Option (List Expr × List Tok)
  | 0, _ => none
  | f + 1, ts =>
    match parseExprF f ts with
    | some (e, rest) => parseCallArgsRest f [e] rest
    | none =>
      match ts with
      | Tok.RightParen :: rest => some ([], rest)
      | _ => none

/-- Continuation of the call argument list. -/
def parseCallArgsRest : Nat → List Expr → List Tok → Option (List Expr × List Tok)
  | 0, _, _ => none
  | f + 1, acc, ts =>
    match ts with
    | Tok.Comma :: rest =>
      match parseExprF f rest with
      | some (e, rest2) => parseCallArgsRest f (acc ++ [e]) rest2
      | none =>
        match rest with
        | Tok.RightParen :: rest2 => some (acc, rest2)
        | _ => none
    | Tok.RightParen :: rest => some (acc, rest)
    | _ => none

/-- The `unary` level (lines 401-425): `!`, `~`, unary `+`/`-` on a unary,
prefix `++`/`--` on an identifier only, otherwise an atom. -/
def parseUnary : Nat → List Tok → Option (Expr × List Tok)
  | 0, _ => none
  | f + 1, ts =>
    match ts with
    | Tok.Not :: rest =>
      (parseUnary f rest).map (fun (e, r) => (.Not e, r))
    | Tok.BitNot :: rest =>
      (parseUnary f rest).map (fun (e, r) => (.BitNot e, r))
    | Tok.Plus :: rest =>
      (parseUnary f rest).map (fun (e, r) => (.Positive e, r))
    | Tok.Minus :: rest =>
      (parseUnary f rest).map (fun (e, r) => (.Negative e, r))
    | Tok.Increment :: Tok.Identifier name :: rest =>
      some (.PreIncrement (.Identifier name), rest)
    | Tok.Decrement :: Tok.Identifier name :: rest =>
      some (.PreDecrement (.Identifier name), rest)
    | _ => parseAtom f ts

/-- The `postfix` level (lines 429-440): postfix `++`/`--` on an identifier
only, otherwise a unary expression. -/
def parsePostfix : Nat → List Tok → Option (Expr × List Tok)
  | 0, _ => none
  | f + 1, ts =>
    match ts with
    | Tok.Identifier name :: Tok.Increment :: rest =>
      some (.PostIncrement (.Identifier name), rest)
    | Tok.Identifier name :: Tok.Decrement :: rest =>
      some (.PostDecrement (.Identifier name), rest)
    | _ => parseUnary f ts

/-- `factor`: left-fold of `* / %` over postfix expressions. -/
def parseFactor : Nat → List Tok → Option (Expr × List Tok)
  | 0, _ => none
  | f + 1, ts => do
    let (e, rest) ← parsePostfix f ts
    parseFactorLoop f e rest

/-- The `repeated` fold of `factor`; an operator whose operand fails to
parse is left unconsumed. -/
def parseFactorLoop : Nat → Expr → List Tok → Option (Expr × List Tok)
  | 0, _, _ => none
  | f + 1, lhs, ts =>
    match ts with
    | Tok.Star :: rest =>
      match parsePostfix f rest with
      | some (r, rest2) => parseFactorLoop f (.Multiplication lhs r) rest2
      | none => some (lhs, ts)
    | Tok.Slash :: rest =>
      match parsePostfix f rest with
      | some (r, rest2) => parseFactorLoop f (.Division lhs r) rest2
      | none => some (lhs, ts)
    | Tok.Percent :: rest =>
      match parsePostfix f rest with
      | some (r, rest2) => parseFactorLoop f (.Percent lhs r) rest2
      | none => some (lhs, ts)
    | _ => some (lhs, ts)

/-- `term`: left-fold of binary `+ -` over factors. -/
def parseTerm : Nat → List Tok → Option (Expr × List Tok)
  | 0, _ => none
  | f + 1, ts => do
    let (e, rest) ← parseFactor f ts
    parseTermLoop f e rest

/-- The `repeated` fold of `term`. -/
def parseTermLoop : Nat → Expr → List Tok → Option (Expr × List Tok)
  | 0, _, _ => none
  | f + 1, lhs, ts =>
    match ts with
    | Tok.Plus :: rest =>
      match parseFactor f rest with
      | some (r, rest2) => parseTermLoop f (.Addition lhs r) rest2
      | none => some (lhs, ts)
    | Tok.Minus :: rest =>
      match parseFactor f rest with
      | some (r, rest2) => parseTermLoop f (.Subtraction lhs r) rest2
      | none => some (lhs, ts)
    | _ => some (lhs, ts)

/-- `comparison`: left-fold of `> >= < <=` over terms. -/
def parseComparison : Nat → List Tok → Option (Expr × List Tok)
  | 0, _ => none
  | f + 1, ts => do
    let (e, rest) ← parseTerm f ts
    parseComparisonLoop f e rest

/-- The `repeated` fold of `comparison`. -/
def parseComparisonLoop : Nat → Expr → List Tok → Option (Expr × List Tok)
  | 0, _, _ => none
  | f + 1, lhs, ts =>
    match ts with
    | Tok.Greater :: rest =>
      match parseTerm f rest with
      | some (r, rest2) => parseComparisonLoop f (.Greater lhs r) rest2
      | none => some (lhs, ts)
    | Tok.GreaterEqual :: rest =>
      match parseTerm f rest with
      | some (r, rest2) => parseComparisonLoop f (.GreaterEqual lhs r) rest2
      | none => some (lhs, ts)
    | Tok.Less :: rest =>
      match parseTerm f rest with
      | some (r, rest2) => parseComparisonLoop f (.Less lhs r) rest2
      | none => some (lhs, ts)
    | Tok.LessEqual :: rest =>
      match parseTerm f rest with
      | some (r, rest2) => parseComparisonLoop f (.LessEqual lhs r) rest2
      | none => some (lhs, ts)
    | _ => some (lhs, ts)

/-- `equality`: left-fold of `== !=` over comparisons. -/
def parseEquality : Nat → List Tok → Option (Expr × List Tok)
  | 0, _ => none
  | f + 1, ts => do
    let (e, rest) ← parseComparison f ts
    parseEqualityLoop f e rest

/-- The `repeated` fold of `equality`. -/
def parseEqualityLoop : Nat → Expr → List Tok → Option (Expr × List Tok)
  | 0, _, _ => none
  | f + 1, lhs, ts =>
    match ts with
    | Tok.EqualEqual :: rest =>
      match parseComparison f rest with
      | some (r, rest2) => parseEqualityLoop f (.EqualEqual lhs r) rest2
      | none => some (lhs, ts)
    | Tok.NotEqual :: rest =>
      match parseComparison f rest with
      | some (r, rest2) => parseEqualityLoop f (.NotEqual lhs r) rest2
      | none => some (lhs, ts)
    | _ => some (lhs, ts)

/-- `bit_and`: left-fold of `&` over equalities. -/
def parseBitAnd : Nat → List Tok → Option (Expr × List Tok)
  | 0, _ => none
  | f + 1, ts => do
    let (e, rest) ← parseEquality f ts
    parseBitAndLoop f e rest

/-- The `repeated` fold of `bit_and`. -/
def parseBitAndLoop : Nat → Expr → List Tok → Option (Expr × List Tok)
  | 0, _, _ => none
  | f + 1, lhs, ts =>
    match ts with
    | Tok.BitAnd :: rest =>
      match parseEquality f rest with
      | some (r, rest2) => parseBitAndLoop f (.BitAnd lhs r) rest2
      | none => some (lhs, ts)
    | _ => some (lhs, ts)

/-- `bit_xor`: left-fold of `^` over `bit_and`s. -/
def parseBitXor : Nat → List Tok → Option (Expr × List Tok)
  | 0, _ => none
  | f + 1, ts => do
    let (e, rest) ← parseBitAnd f ts
    parseBitXorLoop f e rest

/-- The `repeated` fold of `bit_xor`. -/
def parseBitXorLoop : Nat → Expr → List Tok → Option (Expr × List Tok)
  | 0, _, _ => none
  | f + 1, lhs, ts =>
    match ts with
    | Tok.BitXor :: rest =>
      match parseBitAnd f rest with
      | some (r, rest2) => parseBitXorLoop f (.BitXor lhs r) rest2
      | none => some (lhs, ts)
    | _ => some (lhs, ts)

/-- `bit_or`: left-fold of `|` over `bit_xor`s. -/
def parseBitOr : Nat → List Tok → Option (Expr × List Tok)
  | 0, _ => none
  | f + 1, ts => do
    let (e, rest) ← parseBitXor f ts
    parseBitOrLoop f e rest

/-- The `repeated` fold of `bit_or`. -/
def parseBitOrLoop : Nat → Expr → List Tok → Option (Expr × List Tok)
  | 0, _, _ => none
  | f + 1, lhs, ts =>
    match ts with
    | Tok.BitOr :: rest =>
      match parseBitXor f rest with
      | some (r, rest2) => parseBitOrLoop f (.BitOr lhs r) rest2
      | none => some (lhs, ts)
    | _ => some (lhs, ts)

/-- `logic_and`: left-fold of `&&` over `bit_or`s. -/
def parseLogicAnd : Nat → List Tok → Option (Expr × List Tok)
  | 0, _ => none
  | f + 1, ts => do
    let (e, rest) ← parseBitOr f ts
    parseLogicAndLoop f e rest

/-- The `repeated` fold of `logic_and`. -/
def parseLogicAndLoop : Nat → Expr → List Tok → Option (Expr × List Tok)
  | 0, _, _ => none
  | f + 1, lhs, ts =>
    match ts with
    | Tok.And :: rest =>
      match parseBitOr f rest with
      | some (r, rest2) => parseLogicAndLoop f (.And lhs r) rest2
      | none => some (lhs, ts)
    | _ => some (lhs, ts)

/-- `logic_xor`: left-fold of `^^` over `logic_and`s. -/
def parseLogicXor : Nat → List Tok → Option (Expr × List Tok)
  | 0, _ => none
  | f + 1, ts => do
    let (e, rest) ← parseLogicAnd f ts
    parseLogicXorLoop f e rest

/-- The `repeated` fold of `logic_xor`. -/
def parseLogicXorLoop : Nat → Expr → List Tok → Option (Expr × List Tok)
  | 0, _, _ => none
  | f + 1, lhs, ts =>
    match ts with
    | Tok.Xor :: rest =>
      match parseLogicAnd f rest with
      | some (r, rest2) => parseLogicXorLoop f (.Xor lhs r) rest2
      | none => some (lhs, ts)
    | _ => some (lhs, ts)

/-- `logic_or`: left-fold of `||` over `logic_xor`s. -/
def parseLogicOr : Nat → List Tok → Option (Expr × List Tok)
  | 0, _ => none
  | f + 1, ts => do
    let (e, rest) ← parseLogicXor f ts
    parseLogicOrLoop f e rest

/-- The `repeated` fold of `logic_or`. -/
def parseLogicOrLoop : Nat → Expr → List Tok → Option (Expr × List Tok)
  | 0, _, _ => none
  | f + 1, lhs, ts =>
    match ts with
    | Tok.Or :: rest =>
      match parseLogicXor f rest with
      | some (r, rest2) => parseLogicOrLoop f (.Or lhs r) rest2
      | none => some (lhs, ts)
    | _ => some (lhs, ts)

/-- The `ternary` level (lines 585-602): `logic_or`, optionally followed by
`? expr : logic_or` (the else branch parses at the logical-or level); a
failure anywhere inside the optional part backtracks to the bare
condition. -/
def parseTernary : Nat → List Tok → Option (Expr × List Tok)
  | 0, _ => none
  | f + 1, ts => do
    let (c, rest) ← parseLogicOr f ts
    match rest with
    | Tok.Question :: rest2 =>
      match parseExprF f rest2 with
      | some (tB, Tok.Colon :: rest3) =>
        match parseLogicOr f rest3 with
        | some (eB, rest4) => some (.Ternary c tB eB, rest4)
        | none => some (c, rest)
      | _ => some (c, rest)
    | _ => some (c, rest)

/-- `expr_parser` (lines 604-627): the assignment level.  A ternary-level
expression optionally followed by one assignment operator and a
ternary-level right-hand side.  Note that the left-hand side is any
ternary-level expression: the grammar does not restrict it to an
identifier. -/
def parseExprF : Nat → List Tok → Option (Expr × List Tok)
  | 0, _ => none
  | f + 1, ts => do
    let (lhs, rest) ← parseTernary f ts
    match rest with
    | Tok.Equal :: rest2 =>
      match parseTernary f rest2 with
      | some (rhs, rest3) => some (.Equal lhs rhs, rest3)
      | none => some (lhs, rest)
    | Tok.PlusEqual :: rest2 =>
      match parseTernary f rest2 with
      | some (rhs, rest3) => some (.PlusEqual lhs rhs, rest3)
      | none => some (lhs, rest)
    | Tok.MinusEqual :: rest2 =>
      match parseTernary f rest2 with
      | some (rhs, rest3) => some (.MinusEqual lhs rhs, rest3)
      | none => some (lhs, rest)
    | Tok.StarEqual :: rest2 =>
      match parseTernary f rest2 with
      | some (rhs, rest3) => some (.StarEqual lhs rhs, rest3)
      | none => some (lhs, rest)
    | Tok.SlashEqual :: rest2 =>
      match parseTernary f rest2 with
      | some (rhs, rest3) => some (.SlashEqual lhs rhs, rest3)
      | none => some (lhs, rest)
    | Tok.PercentEqual :: rest2 =>
      match parseTernary f rest2 with
      | some (rhs, rest3) => some (.PercentEqual lhs rhs, rest3)
      | none => some (lhs, rest)
    | _ => some (lhs, rest)

/-- `variable_decl -> IDENTIFIER ("=" expression)?`. -/
def parseVarDecl : Nat → List Tok → Option ((String × Option Expr) × List Tok)
  | 0, _ => none
  | f + 1, ts =>
    match ts with
    | Tok.Identifier name :: rest =>
      match rest with
      | Tok.Equal :: rest2 =>
        match parseExprF f rest2 with
        | some (e, rest3) => some ((name, some e), rest3)
        | none => some ((name, none), rest)
      | _ => some ((name, none), rest)
    | _ => none

/-- Continuation of the `var` declaration list: comma-separated, trailing
comma allowed. -/
def parseVarDeclsRest : Nat → List (String × Option Expr) → List Tok →
    Option (List (String × Option Expr) × List Tok)
  | 0, _, _ => none
  | f + 1, acc, ts =>
    match ts with
    | Tok.Comma :: rest =>
      match parseVarDecl f rest with
      | some (d, rest2) => parseVarDeclsRest f (acc ++ [d]) rest2
      | none => some (acc, rest)
    | _ => some (acc, ts)

/-- `var_stmt` (lines 129-138): `var` plus at least one declaration and a
terminator. -/
def parseVarStmt : Nat → List Tok → Option (Option Stmt × List Tok)
  | 0, _ => none
  | f + 1, ts =>
    match ts with
    | Tok.Var :: rest => do
      let (d, rest2) ← parseVarDecl f rest
      let (ds, rest3) ← parseVarDeclsRest f [d] rest2
      let rest4 ← parseTerminator rest3
      some (some (Stmt.Var ds), rest4)
    | _ => none

/-- `expr_stmt` (lines 118-122): an optional expression followed by a
terminator; with no expression the statement is empty (`None`). -/
def parseExprStmt : Nat → List Tok → Option (Option Stmt × List Tok)
  | 0, _ => none
  | f + 1, ts =>
    match parseExprF f ts with
    | some (e, rest) => (parseTerminator rest).map (fun r => (some (Stmt.Expr e), r))
    | none => (parseTerminator ts).map (fun r => ((none : Option Stmt), r))

/-- A brace-delimited block: `{ statement* }`, empty statements dropped. -/
def parseBraceBlock : Nat → List Tok → Option (Stmt × List Tok)
  | 0, _ => none
  | f + 1, ts =>
    match ts with
    | Tok.LeftBrace :: rest => do
      let (sts, rest2) ← parseStmtSeq f [] rest
      match rest2 with
      | Tok.RightBrace :: rest3 => some (Stmt.Block sts, rest3)
      | _ => none
    | _ => none

/-- `statement.repeated()`, flattening away empty statements. -/
def parseStmtSeq : Nat → List Stmt → List Tok → Option (List Stmt × List Tok)
  | 0, _, _ => none
  | f + 1, acc, ts =>
    match parseStmt f ts with
    | some (st, rest) => parseStmtSeq f (acc ++ st.toList) rest
    | none => some (acc, ts)

/-- The single-statement body forms allowed after `if`/`else`
(lines 183-191): a block, a nested `if`, an unterminated `var`, `return`,
`break`, `continue`, or a bare expression. -/
def parseIfBody : Nat → List Tok → Option (Stmt × List Tok)
  | 0, _ => none
  | f + 1, ts =>
    match parseBraceBlock f ts with
    | some r => some r
    | none =>
    match parseIfStmt f ts with
    | some r => some r
    | none =>
    match ts with
    | Tok.Var :: rest =>
      (do
        let (d, rest2) ← parseVarDecl f rest
        let (ds, rest3) ← parseVarDeclsRest f [d] rest2
        some (Stmt.Var ds, rest3))
    | Tok.Return :: rest =>
      match parseExprF f rest with
      | some (e, rest2) => some (Stmt.Return (some e), rest2)
      | none => some (Stmt.Return none, rest)
    | Tok.Break :: rest => some (Stmt.Break, rest)
    | Tok.Continue :: rest => some (Stmt.Continue, rest)
    | _ => (parseExprF f ts).map (fun (e, r) => (Stmt.Expr e, r))

/-- `if_stmt` (lines 155-214): `if`, a parenthesized or bare condition, an
optional `then`, newlines, the then-body, an optional `;`, newlines, and an
optional `else` branch (with its own optional trailing `;`). -/
def parseIfStmt : Nat → List Tok → Option (Stmt × List Tok)
  | 0, _ => none
  | f + 1, ts =>
    match ts with
    | Tok.If :: rest => do
      let (cond, rest2) ←
        (match rest with
          | Tok.LeftParen :: r2 =>
            match parseExprF f r2 with
            | some (e, Tok.RightParen :: r3) => some (e, r3)
            | _ => parseExprF f rest
          | _ => parseExprF f rest)
      let rest3 :=
        match rest2 with
        | Tok.Then :: r => skipNewlines r
        | _ => skipNewlines rest2
      let (thenS, rest4) ← parseIfBody f rest3
      let rest5 :=
        match rest4 with
        | Tok.Semicolon :: r => skipNewlines r
        | _ => skipNewlines rest4
      match rest5 with
      | Tok.Else :: r6 =>
        (match parseIfBody f (skipNewlines r6) with
          | some (elseS, rest7) =>
            let rest8 := match rest7 with | Tok.Semicolon :: r => r | _ => rest7
            some (Stmt.If cond thenS (some elseS), rest8)
          | none => some (Stmt.If cond thenS none, rest5))
      | _ => some (Stmt.If cond thenS none, rest5)
    | _ => none

/-- `return_stmt` (lines 218-221). -/
def parseReturnStmt : Nat → List Tok → Option (Option Stmt × List Tok)
  | 0, _ => none
  | f + 1, ts =>
    match ts with
    | Tok.Return :: rest =>
      match parseExprF f rest with
      | some (e, rest2) =>
        (parseTerminator rest2).map (fun r => (some (Stmt.Return (some e)), r))
      | none =>
        (parseTerminator rest).map (fun r => (some (Stmt.Return none), r))
    | _ => none

/-- `repeat_stmt` (lines 237-244): `repeat (expr)` then newlines then a
statement; an empty body statement makes the whole statement empty. -/
def parseRepeatStmt : Nat → List Tok → Option (Option Stmt × List Tok)
  | 0, _ => none
  | f + 1, ts =>
    match ts with
    | Tok.Repeat :: Tok.LeftParen :: rest => do
      let (count, rest2) ← parseExprF f rest
      match rest2 with
      | Tok.RightParen :: rest3 => do
        let (body, rest4) ← parseStmt f (skipNewlines rest3)
        some (body.map (fun st => Stmt.Repeat count st), rest4)
      | _ => none
    | _ => none

/-- `while_stmt` (lines 248-256): `while` with a parenthesized or bare
condition, newlines, then a statement. -/
def parseWhileStmt : Nat → List Tok → Option (Option Stmt × List Tok)
  | 0, _ => none
  | f + 1, ts =>
    match ts with
    | Tok.While :: rest => do
      let (cond, rest2) ←
        (match rest with
          | Tok.LeftParen :: r2 =>
            match parseExprF f r2 with
            | some (e, Tok.RightParen :: r3) => some (e, r3)
            | _ => parseExprF f rest
          | _ => parseExprF f rest)
      let (body, rest3) ← parseStmt f (skipNewlines rest2)
      some (body.map (fun st => Stmt.While cond st), rest3)
    | _ => none

/-- `do_until_stmt` (lines 260-270): `do`, newlines, a statement, newlines,
`until (expr)`, a terminator. -/
def parseDoUntilStmt : Nat → List Tok → Option (Option Stmt × List Tok)
  | 0, _ => none
  | f + 1, ts =>
    match ts with
    | Tok.Do :: rest => do
      let (body, rest2) ← parseStmt f (skipNewlines rest)
      match skipNewlines rest2 with
      | Tok.Until :: Tok.LeftParen :: rest3 => do
        let (cond, rest4) ← parseExprF f rest3
        match rest4 with
        | Tok.RightParen :: rest5 => do
          let rest6 ← parseTerminator rest5
          some (body.map (fun st => Stmt.DoUntil st cond), rest6)
        | _ => none
      | _ => none
    | _ => none

/-- `for_stmt` (lines 274-298): `for (` init-clause `;`? cond? `;` update?
`)` newlines statement.  The init clause is a single `var` declaration, an
expression, or a bare `;` (empty); the update clause is an expression or
empty. -/
def parseForStmt : Nat → List Tok → Option (Option Stmt × List Tok)
  | 0, _ => none
  | f + 1, ts =>
    match ts with
    | Tok.For :: Tok.LeftParen :: rest => do
      let (initS, rest2) ←
        (match rest with
          | Tok.Var :: r2 =>
            match parseVarDecl f r2 with
            | some ((name, ini), r3) => some (some (Stmt.Var [(name, ini)]), r3)
            | none =>
              match parseExprF f rest with
              | some (e, r3) => some (some (Stmt.Expr e), r3)
              | none =>
                match rest with
                | Tok.Semicolon :: r3 => some (none, r3)
                | _ => none
          | _ =>
            match parseExprF f rest with
            | some (e, r3) => some (some (Stmt.Expr e), r3)
            | none =>
              match rest with
              | Tok.Semicolon :: r3 => some ((none : Option Stmt), r3)
              | _ => none)
      let rest3 := match rest2 with | Tok.Semicolon :: r => r | _ => rest2
      let (cond, rest4) :=
        match parseExprF f rest3 with
        | some (e, r) => (some e, r)
        | none => ((none : Option Expr), rest3)
      match rest4 with
      | Tok.Semicolon :: rest5 => do
        let (update, rest6) :=
          match parseExprF f rest5 with
          | some (e, r) => (some (Stmt.Expr e), r)
          | none => ((none : Option Stmt), rest5)
        match rest6 with
        | Tok.RightParen :: rest7 => do
          let (body, rest8) ← parseStmt f (skipNewlines rest7)
          some (body.map (fun st => Stmt.For initS cond update st), rest8)
        | _ => none
      | _ => none
    | _ => none

/-- `statement` (lines 301-313): the choice over all statement forms, in
source order. -/
def parseStmt : Nat → List Tok → Option (Option Stmt × List Tok)
  | 0, _ => none
  | f + 1, ts =>
    match parseExprStmt f ts with
    | some r => some r
    | none =>
    match parseVarStmt f ts with
    | some r => some r
    | none =>
    match parseIfStmt f ts with
    | some (st, rest) => some (some st, rest)
    | none =>
    match parseReturnStmt f ts with
    | some r => some r
    | none =>
    match ts with
    | Tok.Break :: rest =>
      match parseTerminator rest with
      | some r => some (some Stmt.Break, r)
      | none => parseStmtTail f ts
    | Tok.Continue :: rest =>
      match parseTerminator rest with
      | some r => some (some Stmt.Continue, r)
      | none => parseStmtTail f ts
    | _ => parseStmtTail f ts

/-- The remaining `statement` alternatives (repeat, while, do-until, for,
block). -/
def parseStmtTail : Nat → List Tok → Option (Option Stmt × List Tok)
  | 0, _ => none
  | f + 1, ts =>
    match parseRepeatStmt f ts with
    | some r => some r
    | none =>
    match parseWhileStmt f ts with
    | some r => some r
    | none =>
    match parseDoUntilStmt f ts with
    | some r => some r
    | none =>
    match parseForStmt f ts with
    | some r => some r
    | none =>
    match parseBraceBlock f ts with
    | some (b, rest) => some (some b, rest)
    | none => none

end

/-- Continuation of the function parameter list. -/
def parseParamsRest (acc : List String) : List Tok → Option (List String × List Tok)
  | Tok.Comma :: Tok.Identifier name :: rest => parseParamsRest (acc ++ [name]) rest
  | Tok.Comma :: Tok.RightParen :: rest => some (acc, rest)
  | Tok.RightParen :: rest => some (acc, rest)
  | _ => none

/-- Function parameter list after the `(`: identifiers separated by commas,
trailing comma allowed, zero parameters allowed, closed by `)`. -/
def parseParams : List Tok → Option (List String × List Tok)
  | Tok.Identifier name :: rest => parseParamsRest [name] rest
  | Tok.RightParen :: rest => some ([], rest)
  | _ => none

/-- `function` (lines 318-340): `function name (params) { statements }`. -/
def parseFunction (f : Nat) (ts : List Tok) : Option (TopLevel × List Tok) :=
  match ts with
  | Tok.Function :: Tok.Identifier name :: Tok.LeftParen :: rest => do
    let (params, rest2) ← parseParams rest
    match rest2 with
    | Tok.LeftBrace :: rest3 => do
      let (body, rest4) ← parseStmtSeq f [] rest3
      match rest4 with
      | Tok.RightBrace :: rest5 =>
        some (TopLevel.Function ⟨name, ⟨params, body⟩⟩, rest5)
      | _ => none
    | _ => none
  | _ => none

/-- `top_level` (lines 344-348): a function or a statement. -/
def parseTopLevel (f : Nat) (ts : List Tok) : Option (Option TopLevel × List Tok) :=
  match parseFunction f ts with
  | some (tl, rest) => some (some tl, rest)
  | none =>
    match parseStmt f ts with
    | some (st, rest) => some (st.map TopLevel.Statement, rest)
    | none => none

/-- The `top_level.repeated()` loop with
`recover_with(skip_then_retry_until(any(), end()))`: on a failure, record
an error, skip one token and retry; parsing always continues to the end of
the input, and the parse as a whole fails iff at least one error was
recorded.  Returns the collected items and the error count. -/
def parseProgramAux : Nat → List Tok → List TopLevel × Nat
  | 0, _ => ([], 1)
  | _ + 1, [] => ([], 0)
  | f + 1, ts =>
    match parseTopLevel f ts with
    | some (item, rest) =>
      let (items, errs) := parseProgramAux f rest
      (item.toList ++ items, errs)
    | none =>
      let (items, errs) := parseProgramAux f ts.tail
      (items, errs + 1)

/-- `program_parser().parse(tokens).into_result()`: `Ok(Program)` when no
error was recorded, `Err` otherwise (the handler reports the diagnostics
and returns `Err(())`).  The fuel bound is never reached: every step of
every production consumes a token, and each token costs a bounded number of
recursion levels. -/
def parseProgram (ts : List Tok) : Except Unit Program :=
  let (items, errs) := parseProgramAux (100 * (ts.length + 1)) ts
  if errs = 0 then .ok ⟨items⟩ else .error ()

/-- `parse_source_code` (`src/handler/parse_handler.rs` lines 17-42): lex
(mapping lexer errors to `Error` tokens) and parse. -/
def parse_source_code (s : String) : Except Unit Program :=
  parseProgram (lexTokens s)

/-- A parsing function preserves membership of the `Error` token: whatever
tokens it consumes from the front of the stream, the `Error` token is not
among them.  (No grammar production mentions `Token::Error`, so an `Error`
token can never be consumed by a successful parse.) -/
def KeepsErr {α : Type} (P : List Tok → Option (α × List Tok)) : Prop :=
  ∀ ts x rest, P ts = some (x, rest) → Tok.Error ∈ ts → Tok.Error ∈ rest

/-- The body of the `test` function in §8 scenario 5 of the spec
(`function test() { var a = 5; var b = ++a; var c = a--; var d = --a;
var e = a++; return a + b + c + d + e; }`), exactly as `program_parser`
produces it (additions left-nested). -/
def scenario5_body : List Stmt := [
  .Var [("a", some (.Number 5))],
  .Var [("b", some (.PreIncrement (.Identifier "a")))],
  .Var [("c", some (.PostDecrement (.Identifier "a")))],
  .Var [("d", some (.PreDecrement (.Identifier "a")))],
  .Var [("e", some (.PostIncrement (.Identifier "a")))],
  .Return (some (.Addition (.Addition (.Addition (.Addition
    (.Identifier "a") (.Identifier "b")) (.Identifier "c")) (.Identifier "d"))
    (.Identifier "e")))]

/-- The `for` init clauses the parser can produce: absent, a single-binding
`var`, or an expression statement. -/
def isForInitShape : Option Stmt → Bool
  | none => true
  | some (.Var _) => true
  | some (.Expr _) => true
  | _ => false

/-- The `for` update clauses the parser can produce: absent or an
expression statement. -/
def isForUpdateShape : Option Stmt → Bool
  | none => true
  | some (.Expr _) => true
  | _ => false

/-! ## Theorems -/

/-- Looking up a freshly declared variable yields the stored value. -/
theorem lookupVar_declare (name : String) (v : Val) (σ : Locals) :
    lookupVar (declare_variable name v σ) name = some v := by
  show lookupVar ⟨updateAssoc σ.vars name v⟩ name = some v
  induction σ.vars with
  | nil => simp [lookupVar, updateAssoc, List.find?]
  | cons p rest ih =>
    obtain ⟨k, w⟩ := p
    by_cases hk : k = name
    · subst hk
      simp [lookupVar, updateAssoc, List.find?]
    · simpa [lookupVar, updateAssoc, hk, List.find?, Ne.symm hk] using ih

/-- C1 (counterexample): the parser accepts `1 = 2;` and returns a program
whose assignment node has a `Number` (non-`Identifier`) left-hand side, so an
assignment with a non-identifier left-hand side is not rejected as a parse
error. -/
theorem C1_counterexample :
    parse_source_code "1 = 2;" =
      .ok ⟨[.Statement (.Expr (.Equal (.Number 1) (.Number 2)))]⟩ ∧
    (Expr.Number 1).isIdentifier = false :=
  ⟨rfl, rfl⟩

/-- C1 (amended): the assignment grammar accepts any ternary-level
expression as the left-hand side (`1 = 2;` parses to
`Equal(Number 1, Number 2)`); a non-identifier left-hand side is rejected
later, by IR lowering, as an `InvalidOperation("Assignment target must be a
variable")` error, not by the parser. -/
theorem C1_assignment_lhs :
    parse_source_code "1 = 2;" =
      .ok ⟨[.Statement (.Expr (.Equal (.Number 1) (.Number 2)))]⟩ ∧
    (∀ (l r : Expr) (σ : Locals), l.isIdentifier = false →
      visit_expr_impl (.Equal l r) σ =
        .error (.InvalidOperation "Assignment target must be a variable")) := by
  refine ⟨rfl, fun l r σ h => ?_⟩
  cases l <;> simp_all [visit_expr_impl, Expr.isIdentifier]

/-- Witness for C1: the lowering error at the concrete program `1 = 2`. -/
theorem C1_assignment_lhs_witness :
    visit_expr_impl (.Equal (.Number 1) (.Number 2)) ⟨[]⟩ =
      .error (.InvalidOperation "Assignment target must be a variable") :=
  C1_assignment_lhs.2 (.Number 1) (.Number 2) ⟨[]⟩ rfl

/-- C2 (counterexample): `1.0 ^^ 2.0` — both operands lower to numeric
(f64) values — is not lowered to an XOR of coerced booleans; lowering fails
with `InvalidOperation("Unsupported float operation: Xor")`. -/
theorem C2_counterexample :
    visit_expr_impl (.Xor (.Number 1) (.Number 2)) ⟨[]⟩ =
      .error (.InvalidOperation "Unsupported float operation: Xor") := rfl

/-- C2 (amended): `a ^^ b` is lowered as a single non-short-circuiting
integer XOR of the raw operand values, with no boolean coercion: on two
`i1` operands it is the `i1` xor, and whenever either operand is (or is
promoted to) `f64` the lowering fails with `InvalidOperation` instead of
succeeding. -/
theorem C2_xor_lowering :
    (∀ a b : Bool, gen_binary_op .Xor (.bool a) (.bool b) = .ok (.bool (xor a b))) ∧
    (∀ x y : F64, gen_binary_op .Xor (.float x) (.float y) =
      .error (.InvalidOperation "Unsupported float operation: Xor")) ∧
    (∀ (b : Bool) (x : F64), gen_binary_op .Xor (.bool b) (.float x) =
      .error (.InvalidOperation "Unsupported float operation: Xor")) ∧
    (∀ (x : F64) (b : Bool), gen_binary_op .Xor (.float x) (.bool b) =
      .error (.InvalidOperation "Unsupported float operation: Xor")) :=
  ⟨fun _ _ => rfl, fun _ _ => rfl, fun _ _ => rfl, fun _ _ => rfl⟩

/-- C3 (counterexample): for a NaN-valued `f64` condition the do-until
condition block branches to the exit (the emitted `fcmp oeq v, 0.0` is
false), while coercing with the ordered `!= 0.0` and negating — what the
claim describes — would branch back to the body. -/
theorem C3_counterexample :
    do_until_branch_to_body (.float .nan) = .ok false ∧
    spec_do_until_branch_to_body (.float .nan) = .ok true :=
  ⟨rfl, rfl⟩

/-- C3 (amended): for an `i1` or integer condition the do-until condition
block coerces to `i1` (identity resp. `!= 0`) and negates, exactly as
claimed; for an `f64` condition it instead emits a single ordered
`== 0.0` comparison, which agrees with the negated coercion on every
non-NaN value but exits the loop on NaN (the negated ordered `!= 0.0`
coercion would continue). -/
theorem C3_do_until_condition :
    (∀ b : Bool, do_until_branch_to_body (.bool b) = .ok (!b)) ∧
    (∀ n : Int, do_until_branch_to_body (.int n) = .ok (!(n != 0))) ∧
    (∀ x : F64, do_until_branch_to_body (.float x) = .ok (x.oeq (.val 0))) ∧
    (∀ q : ℚ, do_until_branch_to_body (.float (.val q)) =
      spec_do_until_branch_to_body (.float (.val q))) ∧
    do_until_branch_to_body (.float .nan) = .ok false := by
  refine ⟨fun _ => rfl, fun _ => rfl, fun _ => rfl, fun q => ?_, rfl⟩
  simp [do_until_branch_to_body, spec_do_until_branch_to_body, convert_to_bool,
    F64.oeq, F64.one, pure, Except.pure, bind, Except.bind]

/-- C4: a `return` of an `i1` value is lowered through a select mapping
`true → 1.0`, `false → 0.0` before the return instruction; any other value
is returned unchanged; and a `return` with no expression returns the
constant `0.0`. -/
theorem C4_return_coercion :
    (∀ b : Bool, convert_to_return_type (.bool b) = .float (boolToFloat b)) ∧
    (convert_to_return_type (.bool true) = .float (.val 1) ∧
      convert_to_return_type (.bool false) = .float (.val 0)) ∧
    (∀ v : Val, (∀ b, v ≠ .bool b) → convert_to_return_type v = v) ∧
    (∀ σ : Locals, exec_stmt (.Return none) σ = .ok (.returned (.float (.val 0)), σ)) ∧
    (∀ (e : Expr) (σ σ' : Locals) (v : Val), visit_expr_impl e σ = .ok (v, σ') →
      exec_stmt (.Return (some e)) σ = .ok (.returned (convert_to_return_type v), σ')) := by
  refine ⟨fun _ => rfl, ⟨rfl, rfl⟩, fun v hv => ?_, fun σ => by simp [exec_stmt],
    fun e σ σ' v h => by simp [exec_stmt, h, bind, Except.bind, pure, Except.pure]⟩
  cases v with
  | bool b => exact absurd rfl (hv b)
  | _ => rfl

/-- Witness for C4: the non-boolean case at `i32 7` and a concrete boolean
return (`return true` lowers to `ret 1.0`). -/
theorem C4_return_coercion_witness :
    convert_to_return_type (.int 7) = .int 7 ∧
    exec_stmt (.Return (some (.True true))) ⟨[]⟩ =
      .ok (.returned (.float (.val 1)), ⟨[]⟩) := by
  refine ⟨C4_return_coercion.2.2.1 (.int 7) (fun b => by simp), ?_⟩
  rw [C4_return_coercion.2.2.2.2 (.True true) ⟨[]⟩ ⟨[]⟩ (.bool true) rfl]
  rfl

/-- C9: a `var` declaration without an initializer stores the constant
`0.0` into the fresh slot (also inside multi-declaration lists), and
reading the variable before any assignment yields `0.0`. -/
theorem C9_var_default_zero :
    (∀ (name : String) (σ : Locals),
      exec_stmt (.Var [(name, none)]) σ =
        .ok (.normal (.float (.val 0)), declare_variable name (.float (.val 0)) σ)) ∧
    (∀ (name : String) (rest : List (String × Option Expr)) (σ : Locals) (last : Val),
      exec_var_decls ((name, none) :: rest) σ last =
        exec_var_decls rest (declare_variable name (.float (.val 0)) σ) (.float (.val 0))) ∧
    (∀ (name : String) (σ : Locals),
      visit_expr_impl (.Identifier name) (declare_variable name (.float (.val 0)) σ) =
        .ok (.float (.val 0), declare_variable name (.float (.val 0)) σ)) := by
  refine ⟨fun name σ => by simp [exec_stmt, exec_var_decls, bind, Except.bind, pure, Except.pure],
    fun name rest σ last => by simp [exec_var_decls, bind, Except.bind, pure, Except.pure],
    fun name σ => ?_⟩
  simp [visit_expr_impl, load_variable, lookupVar_declare, bind, Except.bind, pure, Except.pure]

/-- C10: call lowering checks only that the callee's name is registered — an
unregistered name is `UndefinedFunction` — and never compares the supplied
argument count against the declared arity: with the callee registered, the
call instruction is emitted with exactly the given argument values,
whatever their number. -/
theorem C10_call_arity_unchecked :
    (∀ (fs : FuncTable) (name : String) (args : List Val) (sig : FuncSig),
      fs.find? (fun f => f.name == name) = some sig →
      lower_call fs name args = .ok ⟨name, args⟩) ∧
    (∀ (fs : FuncTable) (name : String) (args : List Val),
      fs.find? (fun f => f.name == name) = none →
      lower_call fs name args = .error (.UndefinedFunction name)) := by
  constructor
  · intro fs name args sig h
    simp [lower_call, get_function, h, bind, Except.bind, pure, Except.pure]
  · intro fs name args h
    simp [lower_call, get_function, h, bind, Except.bind, pure, Except.pure]

/-- Witness for C10: a one-argument call to a function registered with two
parameters lowers successfully (no arity error), and a call to an
unregistered name is `UndefinedFunction`. -/
theorem C10_call_arity_unchecked_witness :
    lower_call [⟨"f", 2⟩] "f" [.float (.val 1)] = .ok ⟨"f", [.float (.val 1)]⟩ ∧
    lower_call [⟨"f", 2⟩] "g" [] = .error (.UndefinedFunction "g") :=
  ⟨C10_call_arity_unchecked.1 [⟨"f", 2⟩] "f" [.float (.val 1)] ⟨"f", 2⟩ rfl,
    C10_call_arity_unchecked.2 [⟨"f", 2⟩] "g" [] rfl⟩

/-- C5: for a variable with a defined slot, `++x`/`--x` load the slot, add
(subtract) the `f64` constant `1.0` via `gen_binary_op`, store the result
back, and yield the new value; `x++`/`x--` perform the same
load-compute-store but yield the old loaded value.  End-to-end, the §8
scenario mixing the four forms returns `25.0`. -/
theorem C5_incdec :
    (∀ (name : String) (σ : Locals) (v w : Val),
      lookupVar σ name = some v →
      gen_binary_op .Add v (.float (.val 1)) = .ok w →
      visit_expr_impl (.PreIncrement (.Identifier name)) σ =
        .ok (w, ⟨updateAssoc σ.vars name w⟩) ∧
      visit_expr_impl (.PostIncrement (.Identifier name)) σ =
        .ok (v, ⟨updateAssoc σ.vars name w⟩)) ∧
    (∀ (name : String) (σ : Locals) (v w : Val),
      lookupVar σ name = some v →
      gen_binary_op .Sub v (.float (.val 1)) = .ok w →
      visit_expr_impl (.PreDecrement (.Identifier name)) σ =
        .ok (w, ⟨updateAssoc σ.vars name w⟩) ∧
      visit_expr_impl (.PostDecrement (.Identifier name)) σ =
        .ok (v, ⟨updateAssoc σ.vars name w⟩)) ∧
    run_function_body scenario5_body ⟨[]⟩ = .ok (.float (.val 25)) := by
  refine ⟨fun name σ v w h1 h2 => ?_, fun name σ v w h1 h2 => ?_, ?_⟩
  · constructor <;>
      simp [visit_expr_impl, load_variable, store_variable, h1, h2,
        bind, Except.bind, pure, Except.pure]
  · constructor <;>
      simp [visit_expr_impl, load_variable, store_variable, h1, h2,
        bind, Except.bind, pure, Except.pure]
  · simp +decide [run_function_body, scenario5_body, exec_stmts, exec_stmt,
      exec_var_decls, visit_expr_impl, gen_binary_op, gen_binary_op_floats,
      F64.add, F64.sub, load_variable, store_variable, declare_variable,
      lookupVar, updateAssoc, convert_to_return_type, List.find?,
      bind, Except.bind, pure, Except.pure, Option.map]
    norm_num

/-- Witness for C5: `++a` and `a++` on a slot holding `5.0`. -/
theorem C5_incdec_witness :
    visit_expr_impl (.PreIncrement (.Identifier "a")) ⟨[("a", .float (.val 5))]⟩ =
      .ok (.float (.val 6), ⟨[("a", .float (.val 6))]⟩) ∧
    visit_expr_impl (.PostIncrement (.Identifier "a")) ⟨[("a", .float (.val 5))]⟩ =
      .ok (.float (.val 5), ⟨[("a", .float (.val 6))]⟩) := by
  have h := C5_incdec.1 "a" ⟨[("a", .float (.val 5))]⟩ (.float (.val 5)) (.float (.val 6))
    (by simp [lookupVar, List.find?])
    (by simp [gen_binary_op, gen_binary_op_floats, F64.add]; norm_num)
  simpa [updateAssoc] using h

/-- Rebuilding a scope from its projections. -/
theorem Scope.eta : ∀ s : Scope, Scope.mk s.table s.children = s
  | .mk _ _ => rfl

/-- Projection of a built scope. -/
@[simp] theorem Scope.children_mk (t : List (String × Symbol)) (c : List Scope) :
    (Scope.mk t c).children = c := rfl

/-- Projection of a built scope. -/
@[simp] theorem Scope.table_mk (t : List (String × Symbol)) (c : List Scope) :
    (Scope.mk t c).table = t := rfl

/-- Children of a scope after a pushed child. -/
@[simp] theorem Scope.children_pushChild (s : Scope) (c : Scope) :
    (s.pushChild c).children = s.children ++ [c] := rfl

/-- Table of a scope after a pushed child. -/
@[simp] theorem Scope.table_pushChild (s : Scope) (c : Scope) :
    (s.pushChild c).table = s.table := rfl

/-- Children are unchanged by `add_symbol`. -/
@[simp] theorem Scope.children_add_symbol (s : Scope) (n : String) (sym : Symbol) :
    (s.add_symbol n sym).children = s.children := rfl

/-- The empty scope's projections. -/
@[simp] theorem Scope.children_new : Scope.new.children = [] := rfl

/-- The empty scope's projections. -/
@[simp] theorem Scope.table_new : Scope.new.table = [] := rfl

mutual

/-- `SymbolTableBuilder::visit_expr` performs no scope mutation. -/
theorem stb_visit_expr_eq : ∀ (e : Expr) (s : Scope), stb_visit_expr e s = s
  | .Number _, _ => rfl
  | .String _, _ => rfl
  | .True _, _ => rfl
  | .False _, _ => rfl
  | .Null, _ => rfl
  | .Identifier _, _ => rfl
  | .Call _ args, s => stb_visit_exprs_eq args s
  | .Addition l r, s | .Subtraction l r, s | .Multiplication l r, s
  | .Division l r, s | .Percent l r, s
  | .Greater l r, s | .GreaterEqual l r, s | .Less l r, s | .LessEqual l r, s
  | .EqualEqual l r, s | .NotEqual l r, s
  | .BitAnd l r, s | .BitXor l r, s | .BitOr l r, s
  | .And l r, s | .Xor l r, s | .Or l r, s
  | .Equal l r, s | .PlusEqual l r, s | .MinusEqual l r, s
  | .StarEqual l r, s | .SlashEqual l r, s | .PercentEqual l r, s => by
    rw [stb_visit_expr, stb_visit_expr_eq l s, stb_visit_expr_eq r s]
  | .Not e, s | .BitNot e, s | .Positive e, s | .Negative e, s | .Paren e, s
  | .PreIncrement e, s | .PostIncrement e, s
  | .PreDecrement e, s | .PostDecrement e, s => stb_visit_expr_eq e s
  | .Ternary c t e, s => by
    rw [stb_visit_expr, stb_visit_expr_eq c s, stb_visit_expr_eq t s, stb_visit_expr_eq e s]

/-- Visiting a call's arguments performs no scope mutation. -/
theorem stb_visit_exprs_eq : ∀ (es : List Expr) (s : Scope), stb_visit_exprs es s = s
  | [], _ => rfl
  | e :: rest, s => by
    rw [stb_visit_exprs, stb_visit_expr_eq e s, stb_visit_exprs_eq rest s]

end

/-- Recording `var` declarations never pushes a child scope. -/
theorem stb_visit_var_decls_children (vars : List (String × Option Expr)) :
    ∀ s : Scope, (stb_visit_var_decls vars s).children = s.children := by
  induction vars with
  | nil => intro s; rfl
  | cons p rest ih =>
    intro s
    obtain ⟨n, initE⟩ := p
    cases initE with
    | none =>
      rw [stb_visit_var_decls]
      simpa using ih (s.add_symbol n .Variable)
    | some e =>
      rw [stb_visit_var_decls]
      simpa [stb_visit_expr_eq] using ih (stb_visit_expr e (s.add_symbol n .Variable))

/-- For the init/update shapes the parser can produce, the `for` scope has
no children before the body is visited. -/
theorem stb_for_prebody_children (init : Option Stmt) (cond : Option Expr)
    (update : Option Stmt) (hInit : isForInitShape init = true)
    (hUpdate : isForUpdateShape update = true) :
    (stb_for_prebody init cond update).children = [] := by
  have h1 : (match init with
      | some i => stb_visit_stmt i Scope.new
      | none => Scope.new).children = [] := by
    rcases init with _ | i
    · rfl
    · cases i <;> simp [isForInitShape] at hInit
      · simp [stb_visit_stmt, stb_visit_expr_eq]
      · show (stb_visit_stmt (.Var _) Scope.new).children = []
        rw [stb_visit_stmt]
        simpa using stb_visit_var_decls_children _ Scope.new
  rcases update with _ | u
  · rw [stb_for_prebody.eq_def]
    rcases cond with _ | e
    · exact h1
    · show (stb_visit_expr e _).children = []
      rw [stb_visit_expr_eq]
      exact h1
  · cases u <;> simp [isForUpdateShape] at hUpdate
    rw [stb_for_prebody.eq_def]
    rcases cond with _ | e
    · show (stb_visit_stmt (.Expr _) _).children = []
      rw [stb_visit_stmt, stb_visit_expr_eq]
      exact h1
    · show (stb_visit_stmt (.Expr _) (stb_visit_expr e _)).children = []
      rw [stb_visit_stmt, stb_visit_expr_eq, stb_visit_expr_eq]
      exact h1

/-- The scope analyzer appends to the current scope's children exactly the
scopes of `scope_children_of`, in lexical order. -/
theorem stb_children_spec (st : Stmt) (s : Scope) :
    (stb_visit_stmt st s).children = s.children ++ scope_children_of st := by
  cases st with
  | Expr e => simp [stb_visit_stmt, scope_children_of, stb_visit_expr_eq]
  | Var vars => simp [stb_visit_stmt, scope_children_of, stb_visit_var_decls_children]
  | If cond tS eS =>
    cases eS <;> simp [stb_visit_stmt, scope_children_of, stb_visit_expr_eq]
  | Block stmts =>
    simp [stb_visit_stmt, scope_children_of]
  | Return e =>
    cases e <;> simp [stb_visit_stmt, scope_children_of, stb_visit_expr_eq]
  | Break => simp [stb_visit_stmt, scope_children_of]
  | Continue => simp [stb_visit_stmt, scope_children_of]
  | Repeat c b =>
    simp [stb_visit_stmt, scope_children_of, stb_visit_expr_eq]
  | While c b =>
    simp [stb_visit_stmt, scope_children_of, stb_visit_expr_eq]
  | DoUntil b c =>
    simp [stb_visit_stmt, scope_children_of, stb_visit_expr_eq]
  | For i c u b =>
    rw [stb_visit_stmt]
    show (Scope.pushChild s (stb_visit_stmt b (stb_for_prebody i c u))).children = _
    simp [scope_children_of]

/-- C6: a brace-delimited block as the body of an `if` branch or of a loop
produces exactly two nested scopes — the construct scope with the block
scope as its only child — and every statement appends its child scopes to
the current scope's children in lexical order (`scope_children_of`). -/
theorem C6_two_scopes :
    (∀ (st : Stmt) (s : Scope),
      (stb_visit_stmt st s).children = s.children ++ scope_children_of st) ∧
    (∀ (cond : Expr) (bs : List Stmt) (s : Scope),
      stb_visit_stmt (.While cond (.Block bs)) s =
        .mk s.table (s.children ++ [.mk [] [stb_visit_stmts bs Scope.new]])) ∧
    (∀ (count : Expr) (bs : List Stmt) (s : Scope),
      stb_visit_stmt (.Repeat count (.Block bs)) s =
        .mk s.table (s.children ++ [.mk [] [stb_visit_stmts bs Scope.new]])) ∧
    (∀ (bs : List Stmt) (cond : Expr) (s : Scope),
      stb_visit_stmt (.DoUntil (.Block bs) cond) s =
        .mk s.table (s.children ++ [.mk [] [stb_visit_stmts bs Scope.new]])) ∧
    (∀ (cond : Expr) (bs : List Stmt) (s : Scope),
      stb_visit_stmt (.If cond (.Block bs) none) s =
        .mk s.table (s.children ++ [.mk [] [stb_visit_stmts bs Scope.new]])) ∧
    (∀ (cond : Expr) (bs es : List Stmt) (s : Scope),
      stb_visit_stmt (.If cond (.Block bs) (some (.Block es))) s =
        .mk s.table (s.children ++
          [.mk [] [stb_visit_stmts bs Scope.new], .mk [] [stb_visit_stmts es Scope.new]])) ∧
    (∀ (init : Option Stmt) (cond : Option Expr) (update : Option Stmt)
        (bs : List Stmt) (s : Scope),
      isForInitShape init = true → isForUpdateShape update = true →
      ∃ t, stb_visit_stmt (.For init cond update (.Block bs)) s =
        .mk s.table (s.children ++ [.mk t [stb_visit_stmts bs Scope.new]])) := by
  refine ⟨stb_children_spec, ?_, ?_, ?_, ?_, ?_, ?_⟩
  · intro cond bs s
    simp [stb_visit_stmt, stb_visit_expr_eq, Scope.pushChild, Scope.new,
      Scope.table, Scope.children]
  · intro count bs s
    simp [stb_visit_stmt, stb_visit_expr_eq, Scope.pushChild, Scope.new,
      Scope.table, Scope.children]
  · intro bs cond s
    simp [stb_visit_stmt, stb_visit_expr_eq, Scope.pushChild, Scope.new,
      Scope.table, Scope.children]
  · intro cond bs s
    simp [stb_visit_stmt, stb_visit_expr_eq, Scope.pushChild, Scope.new,
      Scope.table, Scope.children]
  · intro cond bs es s
    simp [stb_visit_stmt, stb_visit_expr_eq, Scope.pushChild, Scope.new,
      Scope.table, Scope.children]
  · intro init cond update bs s hInit hUpdate
    refine ⟨(stb_for_prebody init cond update).table, ?_⟩
    have hch := stb_for_prebody_children init cond update hInit hUpdate
    rw [stb_visit_stmt]
    show Scope.pushChild s (stb_visit_stmt (.Block bs) (stb_for_prebody init cond update)) = _
    rw [stb_visit_stmt]
    show Scope.pushChild s (Scope.pushChild (stb_for_prebody init cond update)
      (stb_visit_stmts bs Scope.new)) = _
    simp [Scope.pushChild, hch]

/-- Witness for C6: the `for (;;) {}` instance of the `for`-body conjunct. -/
theorem C6_two_scopes_witness :
    ∃ t, stb_visit_stmt (.For none none none (.Block [])) Scope.new =
      .mk Scope.new.table (Scope.new.children ++ [.mk t [stb_visit_stmts [] Scope.new]]) :=
  C6_two_scopes.2.2.2.2.2.2 none none none [] Scope.new rfl rfl

/-! ### Character-class facts used by the lexer theorems -/

/-- `UInt32` order in terms of `Nat` order. -/
theorem u32le (a b : UInt32) : (a ≤ b) ↔ (a.toNat ≤ b.toNat) := by
  rw [UInt32.le_def, BitVec.le_def]; rfl

/-- `UInt32` strict order in terms of `Nat` order. -/
theorem u32lt (a b : UInt32) : (a < b) ↔ (a.toNat < b.toNat) := by
  rw [UInt32.lt_def, BitVec.lt_def]; rfl

/-- An identifier-start character is not a digit. -/
theorem identStart_not_digit (c : Char) (h : isIdentStart c = true) :
    c.isDigit = false := by
  simp [isIdentStart, Char.isAlpha, Char.isUpper, Char.isLower, Char.isDigit] at *
  rcases h with ⟨h1, h2⟩ | ⟨h1, h2⟩ | rfl
  · intro h3
    rw [u32le] at *
    rw [u32lt]
    norm_num at *
    omega
  · intro h3
    rw [u32le] at *
    rw [u32lt]
    norm_num at *
    omega
  · decide

/-- An identifier-start character is an identifier character. -/
theorem identStart_identChar (c : Char) (h : isIdentStart c = true) :
    isIdentChar c = true := by
  simp [isIdentChar, isIdentStart, Char.isAlphanum] at *
  tauto

/-- An identifier character is an identifier-start character or a digit. -/
theorem identChar_cases (c : Char) (h : isIdentChar c = true) :
    isIdentStart c = true ∨ c.isDigit = true := by
  simp [isIdentChar, isIdentStart, Char.isAlphanum] at *
  tauto

/-- Identifier characters are none of the characters that start the
string, newline, comment or whitespace rules. -/
theorem identChar_ne (c : Char) (h : isIdentChar c = true) :
    c ≠ '"' ∧ c ≠ '\r' ∧ c ≠ '\n' ∧ c ≠ ' ' ∧ c ≠ '\t' ∧ c ≠ '/' := by
  refine ⟨?_, ?_, ?_, ?_, ?_, ?_⟩ <;> (rintro rfl; exact absurd h (by decide))

/-- A digit does not start an identifier. -/
theorem digit_not_identStart (c : Char) (h : c.isDigit = true) :
    isIdentStart c = false := by
  cases hs : isIdentStart c
  · rfl
  · rw [identStart_not_digit c hs] at h
    exact absurd h (by simp)

/-! ### Facts about the literal-token table -/

/-- Every literal in the table is 1 to 11 characters long. -/
theorem litToks_len : ∀ p ∈ litToks, 1 ≤ p.1.toList.length ∧ p.1.toList.length ≤ 11 := by
  have h : litToks.all
      (fun p => decide (1 ≤ p.1.toList.length) && decide (p.1.toList.length ≤ 11)) = true := by
    decide
  intro p hp
  have := List.all_eq_true.mp h p hp
  simp only [Bool.and_eq_true, decide_eq_true_eq] at this
  exact this

/-- No one-character literal consists of identifier characters (keywords
are at least two characters long; one-character literals are operators and
punctuation). -/
theorem litToks_one_char : ∀ p ∈ litToks,
    p.1.toList.all isIdentChar = true → 2 ≤ p.1.toList.length := by
  have h : litToks.all
      (fun p => !(p.1.toList.all isIdentChar) || decide (2 ≤ p.1.toList.length)) = true := by
    decide
  intro p hp hall
  have := List.all_eq_true.mp h p hp
  simp only [Bool.or_eq_true, Bool.not_eq_true', decide_eq_true_eq] at this
  rcases this with hfalse | hle
  · rw [hall] at hfalse; exact absurd hfalse (by simp)
  · exact hle

/-- A literal match comes from a table entry whose text is a prefix of the
input and whose length is the reported length. -/
theorem matchLitAux_mem : ∀ (T : List (String × Tok)) (cs : Src) (t : Tok) (n : Nat),
    matchLitAux T cs = some (t, n) →
    ∃ p ∈ T, p.2 = t ∧ p.1.toList.length = n ∧ p.1.toList.isPrefixOf cs = true := by
  intro T
  induction T with
  | nil => intro cs t n h; simp [matchLitAux] at h
  | cons p T ih =>
    intro cs t n h
    rw [matchLitAux] at h
    by_cases hpre : p.1.toList.isPrefixOf cs
    · rw [if_pos hpre] at h
      cases hr : matchLitAux T cs with
      | none =>
        rw [hr] at h
        dsimp only at h
        injection h with h
        injection h with h1 h2
        exact ⟨p, by simp, h1, h2, hpre⟩
      | some q =>
        obtain ⟨q1, q2⟩ := q
        rw [hr] at h
        dsimp only at h
        by_cases hlen : p.1.toList.length ≥ q2
        · rw [if_pos hlen] at h
          injection h with h
          injection h with h1 h2
          exact ⟨p, by simp, h1, h2, hpre⟩
        · rw [if_neg hlen] at h
          obtain ⟨p', hp', hrest⟩ := ih cs t n (by rw [hr]; exact congrArg some (by injection h))
          exact ⟨p', by simp [hp'], hrest⟩
    · rw [if_neg hpre] at h
      obtain ⟨p', hp', hrest⟩ := ih cs t n h
      exact ⟨p', by simp [hp'], hrest⟩

/-- When no table entry is a prefix of the input there is no literal
match. -/
theorem matchLitAux_none : ∀ (T : List (String × Tok)) (cs : Src),
    (∀ p ∈ T, p.1.toList.isPrefixOf cs = false) → matchLitAux T cs = none := by
  intro T
  induction T with
  | nil => intro cs _; rfl
  | cons p T ih =>
    intro cs h
    rw [matchLitAux]
    rw [h p (by simp)]
    simp only [Bool.false_eq_true, if_false]
    exact ih cs (fun q hq => h q (by simp [hq]))

/-- A prefix of a list all of whose elements satisfy `q` also has all its
elements satisfying `q`. -/
theorem all_of_isPrefixOf {l cs : Src} {q : Char → Bool}
    (h : l.isPrefixOf cs = true) (hall : cs.all q = true) : l.all q = true := by
  rw [List.isPrefixOf_iff_prefix] at h
  rw [List.all_eq_true] at *
  exact fun x hx => hall x (h.sublist.subset hx)

/-- If the input is not itself a literal, any literal match is strictly
shorter than the input. -/
theorem matchLit_lt (cs : Src) (hne : ∀ p ∈ litToks, p.1.toList ≠ cs)
    (t : Tok) (n : Nat) (h : matchLit cs = some (t, n)) : n < cs.length := by
  obtain ⟨p, hp, _, hlen, hpre⟩ := matchLitAux_mem litToks cs t n h
  rw [List.isPrefixOf_iff_prefix] at hpre
  rcases Nat.lt_or_ge n cs.length with hlt | hge
  · exact hlt
  · exfalso
    have hle := hpre.length_le
    have : p.1.toList.length = cs.length := by omega
    exact hne p hp (hpre.eq_of_length this)

/-- Any literal match is at most 11 characters. -/
theorem matchLit_le11 (cs : Src) (t : Tok) (n : Nat)
    (h : matchLit cs = some (t, n)) : n ≤ 11 := by
  obtain ⟨p, hp, _, hlen, _⟩ := matchLitAux_mem litToks cs t n h
  have := (litToks_len p hp).2
  omega

/-- No literal matches a single identifier character. -/
theorem matchLit_single (d : Char) (hd : isIdentChar d = true) :
    matchLit [d] = none := by
  apply matchLitAux_none
  intro p hp
  cases hpre : p.1.toList.isPrefixOf [d]
  · rfl
  · exfalso
    rw [List.isPrefixOf_iff_prefix] at hpre
    obtain ⟨tl, htl⟩ := hpre
    have h1 := (litToks_len p hp).1
    have hlen := congrArg List.length htl
    simp only [List.length_append, List.length_cons, List.length_nil] at hlen
    have htl0 : tl = [] := List.length_eq_zero.mp (by omega)
    subst htl0
    rw [List.append_nil] at htl
    have hall : p.1.toList.all isIdentChar = true := by rw [htl]; simp [hd]
    have h2 := litToks_one_char p hp hall
    rw [htl] at h2
    simp at h2

/-- A list all of whose elements satisfy `q` is its own `takeWhile q`. -/
theorem takeWhile_all {cs : Src} {q : Char → Bool} (h : cs.all q = true) :
    cs.takeWhile q = cs := by
  rw [List.takeWhile_eq_self_iff]
  rw [List.all_eq_true] at h
  exact h

/-- `matchIdent` on a full identifier-character run. -/
theorem matchIdent_run (c : Char) (rest : Src) (hc : isIdentStart c = true)
    (hall : (c :: rest).all isIdentChar = true) :
    matchIdent (c :: rest) =
      some (.Identifier (String.mk ((c :: rest).take (min 64 (c :: rest).length))),
        min 64 (c :: rest).length) := by
  rw [matchIdent, if_pos hc, takeWhile_all hall]

/-- `matchIdent` fails unless the head is an identifier-start character. -/
theorem matchIdent_none (c : Char) (rest : Src) (h : isIdentStart c = false) :
    matchIdent (c :: rest) = none := by
  rw [matchIdent, if_neg (by simp [h])]

/-- `matchNewline` fails off `\r`/`\n`. -/
theorem matchNewline_none (c : Char) (rest : Src) (h1 : c ≠ '\r') (h2 : c ≠ '\n') :
    matchNewline (c :: rest) = none := by
  unfold matchNewline
  split <;> simp_all

/-- `matchStringLit` fails off `"`. -/
theorem matchStringLit_none (c : Char) (rest : Src) (h : c ≠ '"') :
    matchStringLit (c :: rest) = none := by
  unfold matchStringLit
  split <;> simp_all

/-- `matchNumber` fails off a digit. -/
theorem matchNumber_none (c : Char) (rest : Src) (h : c.isDigit = false) :
    matchNumber (c :: rest) = none := by
  rw [matchNumber, if_neg (by simp [h])]

/-- `matchNumber` on a single digit. -/
theorem matchNumber_single (d : Char) (hd : d.isDigit = true) :
    matchNumber [d] = some (.Number (String.mk [d]), 1) := by
  rw [matchNumber]
  simp [hd, List.takeWhile]

/-- `matchIdent` on a single identifier-start character. -/
theorem matchIdent_single (d : Char) (hd : isIdentStart d = true) :
    matchIdent [d] = some (.Identifier (String.mk [d]), 1) := by
  rw [matchIdent, if_pos hd]
  simp [List.takeWhile, identStart_identChar d hd]

/-- `skipLen` fails off space, tab and `/`. -/
theorem skipLen_none (c : Char) (rest : Src) (h1 : c ≠ ' ') (h2 : c ≠ '\t')
    (h3 : c ≠ '/') : skipLen (c :: rest) = none := by
  unfold skipLen
  split <;> simp_all

/-- `nextToken` on an identifier-character run starting with an
identifier-start character picks the (truncated-to-64) identifier match
whenever every literal match is strictly shorter. -/
theorem nextToken_core (c : Char) (rest : Src) (hc : isIdentStart c = true)
    (hall : (c :: rest).all isIdentChar = true)
    (hml : ∀ t n, matchLit (c :: rest) = some (t, n) → n < min 64 (c :: rest).length) :
    nextToken (c :: rest) =
      some (.Identifier (String.mk ((c :: rest).take (min 64 (c :: rest).length))),
        min 64 (c :: rest).length) := by
  have hic := identStart_identChar c hc
  obtain ⟨hq, hr, hn, _, _, _⟩ := identChar_ne c hic
  rw [nextToken, matchNewline_none c rest hr hn, matchStringLit_none c rest hq,
    matchNumber_none c rest (identStart_not_digit c hc), matchIdent_run c rest hc hall]
  cases hlit : matchLit (c :: rest) with
  | none => rfl
  | some q =>
    obtain ⟨t, n⟩ := q
    have := hml t n hlit
    simp only [pickBest]
    rw [if_pos this]

/-- `nextToken` on a single identifier character: a digit lexes as a
number, anything else as an identifier. -/
theorem nextToken_single (d : Char) (hd : isIdentChar d = true) :
    nextToken [d] =
      some ((if d.isDigit then Tok.Number (String.mk [d])
             else Tok.Identifier (String.mk [d])), 1) := by
  obtain ⟨hq, hr, hn, _, _, _⟩ := identChar_ne d hd
  rw [nextToken, matchLit_single d hd, matchNewline_none d [] hr hn,
    matchStringLit_none d [] hq]
  rcases identChar_cases d hd with hs | hdig
  · rw [matchIdent_single d hs, matchNumber_none d [] (identStart_not_digit d hs),
      identStart_not_digit d hs]
    rfl
  · rw [matchIdent_none d [] (digit_not_identStart d hdig), matchNumber_single d hdig,
      hdig]
    rfl

/-- The lexer loop on the empty input. -/
theorem lexAux_nil : ∀ (fuel off : Nat), lexAux fuel off [] = [] := by
  intro fuel off
  cases fuel <;> rfl

/-- C7 (counterexample): `while` is a maximal identifier-character run of
length 5, yet the lexer emits the keyword token `While`, not an
`Identifier` token — `#token` literals win length ties against the
`Identifier` regex. -/
theorem C7_counterexample :
    "while".toList.all isIdentChar = true ∧
    lexAll "while".toList = [(Tok.While, 0, 5)] ∧
    ∀ s, Tok.While ≠ Tok.Identifier s :=
  ⟨by decide, by rfl, fun s h => Tok.noConfusion h⟩

/-- C7 (amended): a maximal identifier-character run starting with a letter
or underscore: when it is at most 64 characters long and is not a keyword
(no literal-table entry equals it), the lexer emits it as a single
`Identifier` token; when it is 65 characters long, the lexer emits a
64-character `Identifier` token followed by a one-character token for the
remainder — a `Number` when that character is a digit, an `Identifier`
otherwise. -/
theorem C7_identifier_lexing (c : Char) (rest : Src) (hc : isIdentStart c = true)
    (hall : (c :: rest).all isIdentChar = true) :
    ((c :: rest).length ≤ 64 → (∀ p ∈ litToks, p.1.toList ≠ c :: rest) →
      lexAll (c :: rest) = [(Tok.Identifier (String.mk (c :: rest)), 0, (c :: rest).length)])
    ∧ (∀ d, (c :: rest).length = 65 → (c :: rest).drop 64 = [d] →
      lexAll (c :: rest) =
        [(Tok.Identifier (String.mk ((c :: rest).take 64)), 0, 64),
         ((if d.isDigit then Tok.Number (String.mk [d]) else Tok.Identifier (String.mk [d])),
          64, 65)]) := by
  have hskip : skipLen (c :: rest) = none := by
    obtain ⟨_, _, _, h4, h5, h6⟩ := identChar_ne c (identStart_identChar c hc)
    exact skipLen_none c rest h4 h5 h6
  constructor
  · intro hlen hne
    have hmin : min 64 (c :: rest).length = (c :: rest).length := by omega
    have hnt := nextToken_core c rest hc hall (fun t n h => by
      have := matchLit_lt (c :: rest) hne t n h
      omega)
    rw [hmin, List.take_length] at hnt
    show lexAux (rest.length + 1) 0 (c :: rest) = _
    rw [lexAux, hskip, hnt]
    dsimp only
    rw [List.drop_length, lexAux_nil]
    norm_num
  · intro d hlen hd
    have hmin : min 64 (c :: rest).length = 64 := by omega
    have hnt := nextToken_core c rest hc hall (fun t n h => by
      have := matchLit_le11 (c :: rest) t n h
      omega)
    rw [hmin] at hnt
    have hdic : isIdentChar d = true := by
      have hdmem : d ∈ c :: rest := by
        apply List.drop_subset 64
        rw [hd]
        simp
      exact List.all_eq_true.mp hall d hdmem
    have hskip2 : skipLen [d] = none := by
      obtain ⟨_, _, _, h4, h5, h6⟩ := identChar_ne d hdic
      exact skipLen_none d [] h4 h5 h6
    have hnt2 := nextToken_single d hdic
    show lexAux (rest.length + 1) 0 (c :: rest) = _
    rw [lexAux, hskip, hnt]
    dsimp only
    rw [hd]
    rw [show rest.length = 63 + 1 from by simp at hlen; omega]
    rw [lexAux, hskip2, hnt2]
    dsimp only
    norm_num [lexAux_nil]

/-- Witness for C7: `a` lexes as one identifier token; `x` followed by 64
`a`s splits into a 64-character identifier and a trailing identifier. -/
theorem C7_identifier_lexing_witness :
    lexAll ['a'] = [(Tok.Identifier (String.mk ['a']), 0, 1)] ∧
    lexAll ('x' :: List.replicate 64 'a') =
      [(Tok.Identifier (String.mk (('x' :: List.replicate 64 'a').take 64)), 0, 64),
       ((if 'a'.isDigit then Tok.Number (String.mk ['a']) else Tok.Identifier (String.mk ['a'])),
        64, 65)] :=
  ⟨(C7_identifier_lexing 'a' [] (by decide) (by decide)).1 (by decide)
    (by
      have h : litToks.all (fun p => decide (p.1.toList ≠ ['a'])) = true := by decide
      intro p hp
      simpa using List.all_eq_true.mp h p hp),
   (C7_identifier_lexing 'x' (List.replicate 64 'a') (by decide) (by decide)).2 'a'
     (by decide) (by decide)⟩

/-! ### C8: lexer totality and the fate of `Error` tokens -/

/-- Consuming terminator tokens preserves membership of `Error`. -/
theorem skipTerms_mem : ∀ (ts : List Tok), Tok.Error ∈ ts → Tok.Error ∈ skipTerms ts := by
  intro ts h
  induction ts using skipTerms.induct with
  | case1 rest ih => rw [skipTerms]; exact ih (by simpa using h)
  | case2 rest ih => rw [skipTerms]; exact ih (by simpa using h)
  | case3 ts h1 h2 => rw [skipTerms.eq_def]; split <;> simp_all

/-- The terminator parser preserves membership of `Error`. -/
theorem parseTerminator_mem (ts rest : List Tok) (h : parseTerminator ts = some rest)
    (hm : Tok.Error ∈ ts) : Tok.Error ∈ rest := by
  rw [parseTerminator.eq_def] at h
  split at h
  · injection h with h; subst h; exact skipTerms_mem _ (by simpa using hm)
  · injection h with h; subst h; exact skipTerms_mem _ (by simpa using hm)
  · exact Option.noConfusion h

/-- Skipping newlines preserves membership of `Error`. -/
theorem skipNewlines_mem : ∀ (ts : List Tok), Tok.Error ∈ ts → Tok.Error ∈ skipNewlines ts := by
  intro ts h
  induction ts using skipNewlines.induct with
  | case1 rest ih => rw [skipNewlines]; exact ih (by simpa using h)
  | case2 ts h1 => rw [skipNewlines.eq_def]; split <;> simp_all

/-- The parameter-list continuation preserves membership of `Error`. -/
theorem parseParamsRest_mem : ∀ (acc : List String) (ts : List Tok) (x : List String × List Tok),
    parseParamsRest acc ts = some x → Tok.Error ∈ ts → Tok.Error ∈ x.2 := by
  intro acc ts x h hm
  induction acc, ts using parseParamsRest.induct with
  | case1 acc name rest ih =>
    rw [parseParamsRest] at h
    exact ih h (by simpa using hm)
  | case2 acc rest =>
    rw [parseParamsRest] at h
    injection h with h; subst h
    simpa using hm
  | case3 acc rest =>
    rw [parseParamsRest] at h
    injection h with h; subst h
    simpa using hm
  | case4 acc ts h1 h2 h3 =>
    rw [parseParamsRest.eq_def] at h
    split at h <;> simp_all

/-- The parameter-list parser preserves membership of `Error`. -/
theorem parseParams_mem (ts : List Tok) (x : List String × List Tok)
    (h : parseParams ts = some x) (hm : Tok.Error ∈ ts) : Tok.Error ∈ x.2 := by
  rw [parseParams.eq_def] at h
  split at h
  · exact parseParamsRest_mem _ _ _ h (by simpa using hm)
  · injection h with h; subst h; simpa using hm
  · exact Option.noConfusion h

/-- One-step unfolding of `parseCallArgs` at positive fuel. -/
theorem parseCallArgs_succ (f : Nat) (ts : List Tok) :
    parseCallArgs (f + 1) ts =
      (match parseExprF f ts with
        | some (e, r) => parseCallArgsRest f [e] r
        | none =>
          match ts with
          | Tok.RightParen :: r => some (([] : List Expr), r)
          | _ => none) := rfl

/-- One-step unfolding of `parseCallArgsRest` at positive fuel. -/
theorem parseCallArgsRest_succ (f : Nat) (acc : List Expr) (ts : List Tok) :
    parseCallArgsRest (f + 1) acc ts =
      (match ts with
        | Tok.Comma :: r =>
          (match parseExprF f r with
            | some (e, r2) => parseCallArgsRest f (acc ++ [e]) r2
            | none =>
              match r with
              | Tok.RightParen :: r2 => some (acc, r2)
              | _ => none)
        | Tok.RightParen :: r => some (acc, r)
        | _ => none) := rfl

/-- One-step unfolding of `parseStmtSeq` at positive fuel. -/
theorem parseStmtSeq_succ (f : Nat) (acc : List Stmt) (ts : List Tok) :
    parseStmtSeq (f + 1) acc ts =
      (match parseStmt f ts with
        | some (st, r) => parseStmtSeq f (acc ++ st.toList) r
        | none => some (acc, ts)) := rfl

/-- One-step unfolding of `parseIfBody` at positive fuel. -/
theorem parseIfBody_succ (f : Nat) (ts : List Tok) :
    parseIfBody (f + 1) ts =
      (match parseBraceBlock f ts with
        | some r => some r
        | none =>
          match parseIfStmt f ts with
          | some r => some r
          | none =>
            match ts with
            | Tok.Var :: r =>
              (do
                let (d, r2) ← parseVarDecl f r
                let (ds, r3) ← parseVarDeclsRest f [d] r2
                some (Stmt.Var ds, r3))
            | Tok.Return :: r =>
              (match parseExprF f r with
                | some (e, r2) => some (Stmt.Return (some e), r2)
                | none => some (Stmt.Return none, r))
            | Tok.Break :: r => some (Stmt.Break, r)
            | Tok.Continue :: r => some (Stmt.Continue, r)
            | _ => (parseExprF f ts).map (fun (e, r) => (Stmt.Expr e, r))) := rfl

/-- One-step unfolding of `parseStmt` at positive fuel. -/
theorem parseStmt_succ (f : Nat) (ts : List Tok) :
    parseStmt (f + 1) ts =
      (match parseExprStmt f ts with
        | some r => some r
        | none =>
          match parseVarStmt f ts with
          | some r => some r
          | none =>
            match parseIfStmt f ts with
            | some (st, r) => some (some st, r)
            | none =>
              match parseReturnStmt f ts with
              | some r => some r
              | none =>
                match ts with
                | Tok.Break :: r =>
                  (match parseTerminator r with
                    | some r2 => some (some Stmt.Break, r2)
                    | none => parseStmtTail f ts)
                | Tok.Continue :: r =>
                  (match parseTerminator r with
                    | some r2 => some (some Stmt.Continue, r2)
                    | none => parseStmtTail f ts)
                | _ => parseStmtTail f ts) := rfl

/-- One-step unfolding of `parseForStmt` at positive fuel. -/
theorem parseForStmt_succ (f : Nat) (ts : List Tok) :
    parseForStmt (f + 1) ts =
      (match ts with
        | Tok.For :: Tok.LeftParen :: rest => do
          let (initS, rest2) ←
            (match rest with
              | Tok.Var :: r2 =>
                match parseVarDecl f r2 with
                | some ((name, ini), r3) => some (some (Stmt.Var [(name, ini)]), r3)
                | none =>
                  match parseExprF f rest with
                  | some (e, r3) => some (some (Stmt.Expr e), r3)
                  | none =>
                    match rest with
                    | Tok.Semicolon :: r3 => some (none, r3)
                    | _ => none
              | _ =>
                match parseExprF f rest with
                | some (e, r3) => some (some (Stmt.Expr e), r3)
                | none =>
                  match rest with
                  | Tok.Semicolon :: r3 => some ((none : Option Stmt), r3)
                  | _ => none)
          let rest3 := match rest2 with | Tok.Semicolon :: r => r | _ => rest2
          let (cond, rest4) :=
            match parseExprF f rest3 with
            | some (e, r) => (some e, r)
            | none => ((none : Option Expr), rest3)
          match rest4 with
          | Tok.Semicolon :: rest5 => do
            let (update, rest6) :=
              match parseExprF f rest5 with
              | some (e, r) => (some (Stmt.Expr e), r)
              | none => ((none : Option Stmt), rest5)
            match rest6 with
            | Tok.RightParen :: rest7 => do
              let (body, rest8) ← parseStmt f (skipNewlines rest7)
              some (body.map (fun st => Stmt.For initS cond update st), rest8)
            | _ => none
          | _ => none
        | _ => none) := rfl

set_option maxHeartbeats 16000000 in
/-- Every function of the expression/statement parser preserves membership
of the `Error` token: no grammar production consumes `Token::Error`.
Proved for all fuel values by induction on the fuel. -/
theorem parseMem : ∀ f : Nat,
    KeepsErr (parseAtom f) ∧
    KeepsErr (parseCallArgs f) ∧
    (∀ acc, KeepsErr (parseCallArgsRest f acc)) ∧
    KeepsErr (parseUnary f) ∧
    KeepsErr (parsePostfix f) ∧
    KeepsErr (parseFactor f) ∧
    (∀ e, KeepsErr (parseFactorLoop f e)) ∧
    KeepsErr (parseTerm f) ∧
    (∀ e, KeepsErr (parseTermLoop f e)) ∧
    KeepsErr (parseComparison f) ∧
    (∀ e, KeepsErr (parseComparisonLoop f e)) ∧
    KeepsErr (parseEquality f) ∧
    (∀ e, KeepsErr (parseEqualityLoop f e)) ∧
    KeepsErr (parseBitAnd f) ∧
    (∀ e, KeepsErr (parseBitAndLoop f e)) ∧
    KeepsErr (parseBitXor f) ∧
    (∀ e, KeepsErr (parseBitXorLoop f e)) ∧
    KeepsErr (parseBitOr f) ∧
    (∀ e, KeepsErr (parseBitOrLoop f e)) ∧
    KeepsErr (parseLogicAnd f) ∧
    (∀ e, KeepsErr (parseLogicAndLoop f e)) ∧
    KeepsErr (parseLogicXor f) ∧
    (∀ e, KeepsErr (parseLogicXorLoop f e)) ∧
    KeepsErr (parseLogicOr f) ∧
    (∀ e, KeepsErr (parseLogicOrLoop f e)) ∧
    KeepsErr (parseTernary f) ∧
    KeepsErr (parseExprF f) ∧
    KeepsErr (parseVarDecl f) ∧
    (∀ acc, KeepsErr (parseVarDeclsRest f acc)) ∧
    KeepsErr (parseVarStmt f) ∧
    KeepsErr (parseExprStmt f) ∧
    KeepsErr (parseBraceBlock f) ∧
    (∀ acc, KeepsErr (parseStmtSeq f acc)) ∧
    KeepsErr (parseIfBody f) ∧
    KeepsErr (parseIfStmt f) ∧
    KeepsErr (parseReturnStmt f) ∧
    KeepsErr (parseRepeatStmt f) ∧
    KeepsErr (parseWhileStmt f) ∧
    KeepsErr (parseDoUntilStmt f) ∧
    KeepsErr (parseForStmt f) ∧
    KeepsErr (parseStmt f) ∧
    KeepsErr (parseStmtTail f) := by
  intro f
  induction f with
  | zero =>
    refine ⟨?_, ?_, ?_, ?_, ?_, ?_, ?_, ?_, ?_, ?_, ?_, ?_, ?_, ?_, ?_, ?_, ?_, ?_, ?_, ?_,
      ?_, ?_, ?_, ?_, ?_, ?_, ?_, ?_, ?_, ?_, ?_, ?_, ?_, ?_, ?_, ?_, ?_, ?_, ?_, ?_, ?_, ?_⟩ <;>
      (simp only [KeepsErr]; intros; exact Option.noConfusion (by assumption))
  | succ f ih =>
    obtain ⟨ihAtom, ihCallArgs, ihCallArgsRest, ihUnary, ihPostfix, ihFactor, ihFactorLoop,
      ihTerm, ihTermLoop, ihComparison, ihComparisonLoop, ihEquality, ihEqualityLoop,
      ihBitAnd, ihBitAndLoop, ihBitXor, ihBitXorLoop, ihBitOr, ihBitOrLoop,
      ihLAnd, ihLAndLoop, ihLXor, ihLXorLoop, ihLOr, ihLOrLoop,
      ihTernary, ihExpr, ihVarDecl, ihVarDeclsRest, ihVarStmt, ihExprStmt, ihBrace,
      ihStmtSeq, ihIfBody, ihIfStmt, ihReturn, ihRepeat, ihWhile, ihDoUntil, ihFor,
      ihStmt, ihStmtTail⟩ := ih
    refine ⟨?_, ?_, ?_, ?_, ?_, ?_, ?_, ?_, ?_, ?_, ?_, ?_, ?_, ?_, ?_, ?_, ?_, ?_, ?_, ?_,
      ?_, ?_, ?_, ?_, ?_, ?_, ?_, ?_, ?_, ?_, ?_, ?_, ?_, ?_, ?_, ?_, ?_, ?_, ?_, ?_, ?_, ?_⟩
    · intro ts x rest h hm
      rw [parseAtom.eq_def] at h
      split at h
      · exact Option.noConfusion h
      · rename_i tz d1 d2 fx heq
        obtain rfl : f = fx := by omega
        split at h
        · simp only [Option.some.injEq, Prod.mk.injEq] at h
          obtain ⟨-, rfl⟩ := h
          simpa using hm
        · simp only [Option.some.injEq, Prod.mk.injEq] at h
          obtain ⟨-, rfl⟩ := h
          simpa using hm
        · simp only [Option.some.injEq, Prod.mk.injEq] at h
          obtain ⟨-, rfl⟩ := h
          simpa using hm
        · simp only [Option.some.injEq, Prod.mk.injEq] at h
          obtain ⟨-, rfl⟩ := h
          simpa using hm
        · simp only [Option.some.injEq, Prod.mk.injEq] at h
          obtain ⟨-, rfl⟩ := h
          simpa using hm
        · split at h
          · split at h
            · rename_i args rest3 heq2
              simp only [Option.some.injEq, Prod.mk.injEq] at h
              obtain ⟨-, rfl⟩ := h
              exact ihCallArgs _ _ _ heq2 (by simpa using hm)
            · simp only [Option.some.injEq, Prod.mk.injEq] at h
              obtain ⟨-, rfl⟩ := h
              simpa using hm
          · simp only [Option.some.injEq, Prod.mk.injEq] at h
            obtain ⟨-, rfl⟩ := h
            simpa using hm
        · split at h
          · rename_i e rest2 heq2
            simp only [Option.some.injEq, Prod.mk.injEq] at h
            obtain ⟨-, rfl⟩ := h
            have := ihExpr _ _ _ heq2 (by simpa using hm)
            simpa using this
          · exact Option.noConfusion h
        · exact Option.noConfusion h
    · intro ts x rest h hm
      rw [parseCallArgs_succ] at h
      split at h
      · rename_i e r heq2
        exact ihCallArgsRest _ r x rest h (ihExpr ts e r heq2 hm)
      · split at h
        · simp only [Option.some.injEq, Prod.mk.injEq] at h
          obtain ⟨-, rfl⟩ := h
          simpa using hm
        · exact Option.noConfusion h
    · intro acc ts x rest h hm
      rw [parseCallArgsRest_succ] at h
      split at h
      · rename_i rest1
        split at h
        · rename_i e rest2 heq2
          exact ihCallArgsRest _ rest2 x rest h (ihExpr rest1 e rest2 heq2 (by simpa using hm))
        · split at h
          · simp only [Option.some.injEq, Prod.mk.injEq] at h
            obtain ⟨-, rfl⟩ := h
            simpa using hm
          · exact Option.noConfusion h
      · simp only [Option.some.injEq, Prod.mk.injEq] at h
        obtain ⟨-, rfl⟩ := h
        simpa using hm
      · exact Option.noConfusion h
    · intro ts x rest h hm
      rw [parseUnary.eq_def] at h
      split at h
      · exact Option.noConfusion h
      · rename_i tz d1 d2 fx heq
        obtain rfl : f = fx := by omega
        split at h
        · simp only [Option.map_eq_some'] at h
          obtain ⟨⟨e, r⟩, heq2, h⟩ := h
          simp only [Prod.mk.injEq] at h
          obtain ⟨-, rfl⟩ := h
          exact ihUnary _ e r heq2 (by simpa using hm)
        · simp only [Option.map_eq_some'] at h
          obtain ⟨⟨e, r⟩, heq2, h⟩ := h
          simp only [Prod.mk.injEq] at h
          obtain ⟨-, rfl⟩ := h
          exact ihUnary _ e r heq2 (by simpa using hm)
        · simp only [Option.map_eq_some'] at h
          obtain ⟨⟨e, r⟩, heq2, h⟩ := h
          simp only [Prod.mk.injEq] at h
          obtain ⟨-, rfl⟩ := h
          exact ihUnary _ e r heq2 (by simpa using hm)
        · simp only [Option.map_eq_some'] at h
          obtain ⟨⟨e, r⟩, heq2, h⟩ := h
          simp only [Prod.mk.injEq] at h
          obtain ⟨-, rfl⟩ := h
          exact ihUnary _ e r heq2 (by simpa using hm)
        · simp only [Option.some.injEq, Prod.mk.injEq] at h
          obtain ⟨-, rfl⟩ := h
          simpa using hm
        · simp only [Option.some.injEq, Prod.mk.injEq] at h
          obtain ⟨-, rfl⟩ := h
          simpa using hm
        · exact ihAtom tz x rest h hm
    · intro ts x rest h hm
      rw [parsePostfix.eq_def] at h
      split at h
      · exact Option.noConfusion h
      · rename_i tz d1 d2 fx heq
        obtain rfl : f = fx := by omega
        split at h
        · simp only [Option.some.injEq, Prod.mk.injEq] at h
          obtain ⟨-, rfl⟩ := h
          simpa using hm
        · simp only [Option.some.injEq, Prod.mk.injEq] at h
          obtain ⟨-, rfl⟩ := h
          simpa using hm
        · exact ihUnary tz x rest h hm
    · intro ts x rest h hm
      rw [parseFactor.eq_def] at h
      split at h
      · exact Option.noConfusion h
      · rename_i tz d1 d2 fx heq
        obtain rfl : f = fx := by omega
        cases heq2 : parsePostfix f tz with
        | none => rw [heq2] at h; exact Option.noConfusion h
        | some p =>
          obtain ⟨e, r⟩ := p
          rw [heq2] at h
          exact ihFactorLoop e r x rest h (ihPostfix tz e r heq2 hm)
    · intro e ts x rest h hm
      rw [parseFactorLoop.eq_def] at h
      split at h
      · exact Option.noConfusion h
      · rename_i az tz d1 d2 d3 fx heq
        obtain rfl : f = fx := by omega
        split at h
        · rename_i r1
          split at h
          · rename_i e2 r2 heq2
            exact ihFactorLoop _ r2 x rest h (ihPostfix r1 e2 r2 heq2 (by simpa using hm))
          ·
            simp only [Option.some.injEq, Prod.mk.injEq] at h
            obtain ⟨-, rfl⟩ := h
            exact hm
        · rename_i r1
          split at h
          · rename_i e2 r2 heq2
            exact ihFactorLoop _ r2 x rest h (ihPostfix r1 e2 r2 heq2 (by simpa using hm))
          ·
            simp only [Option.some.injEq, Prod.mk.injEq] at h
            obtain ⟨-, rfl⟩ := h
            exact hm
        · rename_i r1
          split at h
          · rename_i e2 r2 heq2
            exact ihFactorLoop _ r2 x rest h (ihPostfix r1 e2 r2 heq2 (by simpa using hm))
          ·
            simp only [Option.some.injEq, Prod.mk.injEq] at h
            obtain ⟨-, rfl⟩ := h
            exact hm
        · simp only [Option.some.injEq, Prod.mk.injEq] at h
          obtain ⟨-, rfl⟩ := h
          exact hm
    · intro ts x rest h hm
      rw [parseTerm.eq_def] at h
      split at h
      · exact Option.noConfusion h
      · rename_i tz d1 d2 fx heq
        obtain rfl : f = fx := by omega
        cases heq2 : parseFactor f tz with
        | none => rw [heq2] at h; exact Option.noConfusion h
        | some p =>
          obtain ⟨e, r⟩ := p
          rw [heq2] at h
          exact ihTermLoop e r x rest h (ihFactor tz e r heq2 hm)
    · intro e ts x rest h hm
      rw [parseTermLoop.eq_def] at h
      split at h
      · exact Option.noConfusion h
      · rename_i az tz d1 d2 d3 fx heq
        obtain rfl : f = fx := by omega
        split at h
        · rename_i r1
          split at h
          · rename_i e2 r2 heq2
            exact ihTermLoop _ r2 x rest h (ihFactor r1 e2 r2 heq2 (by simpa using hm))
          ·
            simp only [Option.some.injEq, Prod.mk.injEq] at h
            obtain ⟨-, rfl⟩ := h
            exact hm
        · rename_i r1
          split at h
          · rename_i e2 r2 heq2
            exact ihTermLoop _ r2 x rest h (ihFactor r1 e2 r2 heq2 (by simpa using hm))
          ·
            simp only [Option.some.injEq, Prod.mk.injEq] at h
            obtain ⟨-, rfl⟩ := h
            exact hm
        · simp only [Option.some.injEq, Prod.mk.injEq] at h
          obtain ⟨-, rfl⟩ := h
          exact hm
    · intro ts x rest h hm
      rw [parseComparison.eq_def] at h
      split at h
      · exact Option.noConfusion h
      · rename_i tz d1 d2 fx heq
        obtain rfl : f = fx := by omega
        cases heq2 : parseTerm f tz with
        | none => rw [heq2] at h; exact Option.noConfusion h
        | some p =>
          obtain ⟨e, r⟩ := p
          rw [heq2] at h
          exact ihComparisonLoop e r x rest h (ihTerm tz e r heq2 hm)
    · intro e ts x rest h hm
      rw [parseComparisonLoop.eq_def] at h
      split at h
      · exact Option.noConfusion h
      · rename_i az tz d1 d2 d3 fx heq
        obtain rfl : f = fx := by omega
        split at h
        · rename_i r1
          split at h
          · rename_i e2 r2 heq2
            exact ihComparisonLoop _ r2 x rest h (ihTerm r1 e2 r2 heq2 (by simpa using hm))
          ·
            simp only [Option.some.injEq, Prod.mk.injEq] at h
            obtain ⟨-, rfl⟩ := h
            exact hm
        · rename_i r1
          split at h
          · rename_i e2 r2 heq2
            exact ihComparisonLoop _ r2 x rest h (ihTerm r1 e2 r2 heq2 (by simpa using hm))
          ·
            simp only [Option.some.injEq, Prod.mk.injEq] at h
            obtain ⟨-, rfl⟩ := h
            exact hm
        · rename_i r1
          split at h
          · rename_i e2 r2 heq2
            exact ihComparisonLoop _ r2 x rest h (ihTerm r1 e2 r2 heq2 (by simpa using hm))
          ·
            simp only [Option.some.injEq, Prod.mk.injEq] at h
            obtain ⟨-, rfl⟩ := h
            exact hm
        · rename_i r1
          split at h
          · rename_i e2 r2 heq2
            exact ihComparisonLoop _ r2 x rest h (ihTerm r1 e2 r2 heq2 (by simpa using hm))
          ·
            simp only [Option.some.injEq, Prod.mk.injEq] at h
            obtain ⟨-, rfl⟩ := h
            exact hm
        · simp only [Option.some.injEq, Prod.mk.injEq] at h
          obtain ⟨-, rfl⟩ := h
          exact hm
    · intro ts x rest h hm
      rw [parseEquality.eq_def] at h
      split at h
      · exact Option.noConfusion h
      · rename_i tz d1 d2 fx heq
        obtain rfl : f = fx := by omega
        cases heq2 : parseComparison f tz with
        | none => rw [heq2] at h; exact Option.noConfusion h
        | some p =>
          obtain ⟨e, r⟩ := p
          rw [heq2] at h
          exact ihEqualityLoop e r x rest h (ihComparison tz e r heq2 hm)
    · intro e ts x rest h hm
      rw [parseEqualityLoop.eq_def] at h
      split at h
      · exact Option.noConfusion h
      · rename_i az tz d1 d2 d3 fx heq
        obtain rfl : f = fx := by omega
        split at h
        · rename_i r1
          split at h
          · rename_i e2 r2 heq2
            exact ihEqualityLoop _ r2 x rest h (ihComparison r1 e2 r2 heq2 (by simpa using hm))
          ·
            simp only [Option.some.injEq, Prod.mk.injEq] at h
            obtain ⟨-, rfl⟩ := h
            exact hm
        · rename_i r1
          split at h
          · rename_i e2 r2 heq2
            exact ihEqualityLoop _ r2 x rest h (ihComparison r1 e2 r2 heq2 (by simpa using hm))
          ·
            simp only [Option.some.injEq, Prod.mk.injEq] at h
            obtain ⟨-, rfl⟩ := h
            exact hm
        · simp only [Option.some.injEq, Prod.mk.injEq] at h
          obtain ⟨-, rfl⟩ := h
          exact hm
    · intro ts x rest h hm
      rw [parseBitAnd.eq_def] at h
      split at h
      · exact Option.noConfusion h
      · rename_i tz d1 d2 fx heq
        obtain rfl : f = fx := by omega
        cases heq2 : parseEquality f tz with
        | none => rw [heq2] at h; exact Option.noConfusion h
        | some p =>
          obtain ⟨e, r⟩ := p
          rw [heq2] at h
          exact ihBitAndLoop e r x rest h (ihEquality tz e r heq2 hm)
    · intro e ts x rest h hm
      rw [parseBitAndLoop.eq_def] at h
      split at h
      · exact Option.noConfusion h
      · rename_i az tz d1 d2 d3 fx heq
        obtain rfl : f = fx := by omega
        split at h
        · rename_i r1
          split at h
          · rename_i e2 r2 heq2
            exact ihBitAndLoop _ r2 x rest h (ihEquality r1 e2 r2 heq2 (by simpa using hm))
          ·
            simp only [Option.some.injEq, Prod.mk.injEq] at h
            obtain ⟨-, rfl⟩ := h
            exact hm
        · simp only [Option.some.injEq, Prod.mk.injEq] at h
          obtain ⟨-, rfl⟩ := h
          exact hm
    · intro ts x rest h hm
      rw [parseBitXor.eq_def] at h
      split at h
      · exact Option.noConfusion h
      · rename_i tz d1 d2 fx heq
        obtain rfl : f = fx := by omega
        cases heq2 : parseBitAnd f tz with
        | none => rw [heq2] at h; exact Option.noConfusion h
        | some p =>
          obtain ⟨e, r⟩ := p
          rw [heq2] at h
          exact ihBitXorLoop e r x rest h (ihBitAnd tz e r heq2 hm)
    · intro e ts x rest h hm
      rw [parseBitXorLoop.eq_def] at h
      split at h
      · exact Option.noConfusion h
      · rename_i az tz d1 d2 d3 fx heq
        obtain rfl : f = fx := by omega
        split at h
        · rename_i r1
          split at h
          · rename_i e2 r2 heq2
            exact ihBitXorLoop _ r2 x rest h (ihBitAnd r1 e2 r2 heq2 (by simpa using hm))
          ·
            simp only [Option.some.injEq, Prod.mk.injEq] at h
            obtain ⟨-, rfl⟩ := h
            exact hm
        · simp only [Option.some.injEq, Prod.mk.injEq] at h
          obtain ⟨-, rfl⟩ := h
          exact hm
    · intro ts x rest h hm
      rw [parseBitOr.eq_def] at h
      split at h
      · exact Option.noConfusion h
      · rename_i tz d1 d2 fx heq
        obtain rfl : f = fx := by omega
        cases heq2 : parseBitXor f tz with
        | none => rw [heq2] at h; exact Option.noConfusion h
        | some p =>
          obtain ⟨e, r⟩ := p
          rw [heq2] at h
          exact ihBitOrLoop e r x rest h (ihBitXor tz e r heq2 hm)
    · intro e ts x rest h hm
      rw [parseBitOrLoop.eq_def] at h
      split at h
      · exact Option.noConfusion h
      · rename_i az tz d1 d2 d3 fx heq
        obtain rfl : f = fx := by omega
        split at h
        · rename_i r1
          split at h
          · rename_i e2 r2 heq2
            exact ihBitOrLoop _ r2 x rest h (ihBitXor r1 e2 r2 heq2 (by simpa using hm))
          ·
            simp only [Option.some.injEq, Prod.mk.injEq] at h
            obtain ⟨-, rfl⟩ := h
            exact hm
        · simp only [Option.some.injEq, Prod.mk.injEq] at h
          obtain ⟨-, rfl⟩ := h
          exact hm
    · intro ts x rest h hm
      rw [parseLogicAnd.eq_def] at h
      split at h
      · exact Option.noConfusion h
      · rename_i tz d1 d2 fx heq
        obtain rfl : f = fx := by omega
        cases heq2 : parseBitOr f tz with
        | none => rw [heq2] at h; exact Option.noConfusion h
        | some p =>
          obtain ⟨e, r⟩ := p
          rw [heq2] at h
          exact ihLAndLoop e r x rest h (ihBitOr tz e r heq2 hm)
    · intro e ts x rest h hm
      rw [parseLogicAndLoop.eq_def] at h
      split at h
      · exact Option.noConfusion h
      · rename_i az tz d1 d2 d3 fx heq
        obtain rfl : f = fx := by omega
        split at h
        · rename_i r1
          split at h
          · rename_i e2 r2 heq2
            exact ihLAndLoop _ r2 x rest h (ihBitOr r1 e2 r2 heq2 (by simpa using hm))
          ·
            simp only [Option.some.injEq, Prod.mk.injEq] at h
            obtain ⟨-, rfl⟩ := h
            exact hm
        · simp only [Option.some.injEq, Prod.mk.injEq] at h
          obtain ⟨-, rfl⟩ := h
          exact hm
    · intro ts x rest h hm
      rw [parseLogicXor.eq_def] at h
      split at h
      · exact Option.noConfusion h
      · rename_i tz d1 d2 fx heq
        obtain rfl : f = fx := by omega
        cases heq2 : parseLogicAnd f tz with
        | none => rw [heq2] at h; exact Option.noConfusion h
        | some p =>
          obtain ⟨e, r⟩ := p
          rw [heq2] at h
          exact ihLXorLoop e r x rest h (ihLAnd tz e r heq2 hm)
    · intro e ts x rest h hm
      rw [parseLogicXorLoop.eq_def] at h
      split at h
      · exact Option.noConfusion h
      · rename_i az tz d1 d2 d3 fx heq
        obtain rfl : f = fx := by omega
        split at h
        · rename_i r1
          split at h
          · rename_i e2 r2 heq2
            exact ihLXorLoop _ r2 x rest h (ihLAnd r1 e2 r2 heq2 (by simpa using hm))
          ·
            simp only [Option.some.injEq, Prod.mk.injEq] at h
            obtain ⟨-, rfl⟩ := h
            exact hm
        · simp only [Option.some.injEq, Prod.mk.injEq] at h
          obtain ⟨-, rfl⟩ := h
          exact hm
    · intro ts x rest h hm
      rw [parseLogicOr.eq_def] at h
      split at h
      · exact Option.noConfusion h
      · rename_i tz d1 d2 fx heq
        obtain rfl : f = fx := by omega
        cases heq2 : parseLogicXor f tz with
        | none => rw [heq2] at h; exact Option.noConfusion h
        | some p =>
          obtain ⟨e, r⟩ := p
          rw [heq2] at h
          exact ihLOrLoop e r x rest h (ihLXor tz e r heq2 hm)
    · intro e ts x rest h hm
      rw [parseLogicOrLoop.eq_def] at h
      split at h
      · exact Option.noConfusion h
      · rename_i az tz d1 d2 d3 fx heq
        obtain rfl : f = fx := by omega
        split at h
        · rename_i r1
          split at h
          · rename_i e2 r2 heq2
            exact ihLOrLoop _ r2 x rest h (ihLXor r1 e2 r2 heq2 (by simpa using hm))
          ·
            simp only [Option.some.injEq, Prod.mk.injEq] at h
            obtain ⟨-, rfl⟩ := h
            exact hm
        · simp only [Option.some.injEq, Prod.mk.injEq] at h
          obtain ⟨-, rfl⟩ := h
          exact hm
    · intro ts x rest h hm
      rw [parseTernary.eq_def] at h
      split at h
      · exact Option.noConfusion h
      · rename_i tz d1 d2 fx heq
        obtain rfl : f = fx := by omega
        cases heq2 : parseLogicOr f tz with
        | none => rw [heq2] at h; exact Option.noConfusion h
        | some p =>
          obtain ⟨c, r⟩ := p
          rw [heq2] at h
          dsimp only [Bind.bind, Option.bind] at h
          have h2 : Tok.Error ∈ r := ihLOr tz c r heq2 hm
          split at h
          · rename_i rest2
            split at h
            · rename_i tB rest3 heq3
              split at h
              · rename_i eB rest4 heq4
                simp only [Option.some.injEq, Prod.mk.injEq] at h
                obtain ⟨-, rfl⟩ := h
                have h3 := ihExpr rest2 tB _ heq3 (by simpa using h2)
                exact ihLOr rest3 eB rest4 heq4 (by simpa using h3)
              · simp only [Option.some.injEq, Prod.mk.injEq] at h
                obtain ⟨-, rfl⟩ := h
                exact h2
            · simp only [Option.some.injEq, Prod.mk.injEq] at h
              obtain ⟨-, rfl⟩ := h
              exact h2
          · simp only [Option.some.injEq, Prod.mk.injEq] at h
            obtain ⟨-, rfl⟩ := h
            exact h2
    · intro ts x rest h hm
      rw [parseExprF.eq_def] at h
      split at h
      · exact Option.noConfusion h
      · rename_i tz d1 d2 fx heq
        obtain rfl : f = fx := by omega
        cases heq2 : parseTernary f tz with
        | none => rw [heq2] at h; exact Option.noConfusion h
        | some p =>
          obtain ⟨lhs, r⟩ := p
          rw [heq2] at h
          dsimp only [Bind.bind, Option.bind] at h
          have h2 : Tok.Error ∈ r := ihTernary tz lhs r heq2 hm
          split at h
          · rename_i rest2
            split at h
            · rename_i rhs rest3 heq3
              simp only [Option.some.injEq, Prod.mk.injEq] at h
              obtain ⟨-, rfl⟩ := h
              exact ihTernary rest2 rhs rest3 heq3 (by simpa using h2)
            · simp only [Option.some.injEq, Prod.mk.injEq] at h
              obtain ⟨-, rfl⟩ := h
              exact h2
          · rename_i rest2
            split at h
            · rename_i rhs rest3 heq3
              simp only [Option.some.injEq, Prod.mk.injEq] at h
              obtain ⟨-, rfl⟩ := h
              exact ihTernary rest2 rhs rest3 heq3 (by simpa using h2)
            · simp only [Option.some.injEq, Prod.mk.injEq] at h
              obtain ⟨-, rfl⟩ := h
              exact h2
          · rename_i rest2
            split at h
            · rename_i rhs rest3 heq3
              simp only [Option.some.injEq, Prod.mk.injEq] at h
              obtain ⟨-, rfl⟩ := h
              exact ihTernary rest2 rhs rest3 heq3 (by simpa using h2)
            · simp only [Option.some.injEq, Prod.mk.injEq] at h
              obtain ⟨-, rfl⟩ := h
              exact h2
          · rename_i rest2
            split at h
            · rename_i rhs rest3 heq3
              simp only [Option.some.injEq, Prod.mk.injEq] at h
              obtain ⟨-, rfl⟩ := h
              exact ihTernary rest2 rhs rest3 heq3 (by simpa using h2)
            · simp only [Option.some.injEq, Prod.mk.injEq] at h
              obtain ⟨-, rfl⟩ := h
              exact h2
          · rename_i rest2
            split at h
            · rename_i rhs rest3 heq3
              simp only [Option.some.injEq, Prod.mk.injEq] at h
              obtain ⟨-, rfl⟩ := h
              exact ihTernary rest2 rhs rest3 heq3 (by simpa using h2)
            · simp only [Option.some.injEq, Prod.mk.injEq] at h
              obtain ⟨-, rfl⟩ := h
              exact h2
          · rename_i rest2
            split at h
            · rename_i rhs rest3 heq3
              simp only [Option.some.injEq, Prod.mk.injEq] at h
              obtain ⟨-, rfl⟩ := h
              exact ihTernary rest2 rhs rest3 heq3 (by simpa using h2)
            · simp only [Option.some.injEq, Prod.mk.injEq] at h
              obtain ⟨-, rfl⟩ := h
              exact h2
          · simp only [Option.some.injEq, Prod.mk.injEq] at h
            obtain ⟨-, rfl⟩ := h
            exact h2
    · intro ts x rest h hm
      rw [parseVarDecl.eq_def] at h
      split at h
      · exact Option.noConfusion h
      · rename_i tz d1 d2 fx heq
        obtain rfl : f = fx := by omega
        split at h
        · split at h
          · rename_i rest2
            split at h
            · rename_i e rest3 heq2
              simp only [Option.some.injEq, Prod.mk.injEq] at h
              obtain ⟨-, rfl⟩ := h
              exact ihExpr rest2 e rest3 heq2 (by simpa using hm)
            · simp only [Option.some.injEq, Prod.mk.injEq] at h
              obtain ⟨-, rfl⟩ := h
              simpa using hm
          · simp only [Option.some.injEq, Prod.mk.injEq] at h
            obtain ⟨-, rfl⟩ := h
            simpa using hm
        · exact Option.noConfusion h
    · intro acc ts x rest h hm
      rw [parseVarDeclsRest.eq_def] at h
      split at h
      · exact Option.noConfusion h
      · rename_i az tz d1 d2 d3 fx heq
        obtain rfl : f = fx := by omega
        split at h
        · rename_i rest1
          split at h
          · rename_i d rest2 heq2
            exact ihVarDeclsRest _ rest2 x rest h (ihVarDecl rest1 d rest2 heq2 (by simpa using hm))
          · simp only [Option.some.injEq, Prod.mk.injEq] at h
            obtain ⟨-, rfl⟩ := h
            simpa using hm
        · simp only [Option.some.injEq, Prod.mk.injEq] at h
          obtain ⟨-, rfl⟩ := h
          exact hm
    · intro ts x rest h hm
      rw [parseVarStmt.eq_def] at h
      split at h
      · exact Option.noConfusion h
      · rename_i tz d1 d2 fx heq
        obtain rfl : f = fx := by omega
        split at h
        · rename_i rest1
          dsimp only [Bind.bind, Option.bind] at h
          split at h
          · exact Option.noConfusion h
          · rename_i o1 k1 p heq2
            obtain ⟨d, rest2⟩ := p
            dsimp only at h
            have h2 : Tok.Error ∈ rest2 := ihVarDecl rest1 d rest2 heq2 (by simpa using hm)
            split at h
            · exact Option.noConfusion h
            · rename_i o2 k2 q heq3
              obtain ⟨ds, rest3⟩ := q
              dsimp only at h
              have h3 : Tok.Error ∈ rest3 := ihVarDeclsRest [d] rest2 ds rest3 heq3 h2
              split at h
              · exact Option.noConfusion h
              · rename_i o3 k3 rest4 heq4
                simp only [Option.some.injEq, Prod.mk.injEq] at h
                obtain ⟨-, rfl⟩ := h
                exact parseTerminator_mem rest3 rest4 heq4 h3
        · exact Option.noConfusion h
    · intro ts x rest h hm
      rw [parseExprStmt.eq_def] at h
      split at h
      · exact Option.noConfusion h
      · rename_i tz d1 d2 fx heq
        obtain rfl : f = fx := by omega
        split at h
        · rename_i e r heq2
          simp only [Option.map_eq_some'] at h
          obtain ⟨r2, heq3, h⟩ := h
          simp only [Prod.mk.injEq] at h
          obtain ⟨-, rfl⟩ := h
          exact parseTerminator_mem r r2 heq3 (ihExpr tz e r heq2 hm)
        · simp only [Option.map_eq_some'] at h
          obtain ⟨r2, heq3, h⟩ := h
          simp only [Prod.mk.injEq] at h
          obtain ⟨-, rfl⟩ := h
          exact parseTerminator_mem tz r2 heq3 hm
    · intro ts x rest h hm
      rw [parseBraceBlock.eq_def] at h
      split at h
      · exact Option.noConfusion h
      · rename_i tz d1 d2 fx heq
        obtain rfl : f = fx := by omega
        split at h
        · rename_i rest1
          dsimp only [Bind.bind, Option.bind] at h
          split at h
          · exact Option.noConfusion h
          · rename_i o1 k1 p heq2
            obtain ⟨sts, rest2⟩ := p
            dsimp only at h
            have h2 : Tok.Error ∈ rest2 := ihStmtSeq [] rest1 sts rest2 heq2 (by simpa using hm)
            split at h
            · rename_i rest3
              simp only [Option.some.injEq, Prod.mk.injEq] at h
              obtain ⟨-, rfl⟩ := h
              simpa using h2
            · exact Option.noConfusion h
        · exact Option.noConfusion h
    · intro acc ts x rest h hm
      rw [parseStmtSeq_succ] at h
      split at h
      · rename_i st r heq2
        exact ihStmtSeq _ r x rest h (ihStmt ts st r heq2 hm)
      · simp only [Option.some.injEq, Prod.mk.injEq] at h
        obtain ⟨-, rfl⟩ := h
        exact hm
    · intro ts x rest h hm
      rw [parseIfBody_succ] at h
      split at h
      · rename_i p heq2
        obtain ⟨b, rb⟩ := p
        simp only [Option.some.injEq, Prod.mk.injEq] at h
        obtain ⟨-, rfl⟩ := h
        exact ihBrace ts b rb heq2 hm
      · split at h
        · rename_i p heq3
          obtain ⟨st, rb⟩ := p
          simp only [Option.some.injEq, Prod.mk.injEq] at h
          obtain ⟨-, rfl⟩ := h
          exact ihIfStmt ts st rb heq3 hm
        · split at h
          · rename_i rest1 h01 h02
            dsimp only [Bind.bind, Option.bind] at h
            split at h
            · exact Option.noConfusion h
            · rename_i o1 k1 p heq4
              obtain ⟨d, rest2⟩ := p
              dsimp only at h
              have h2 : Tok.Error ∈ rest2 := ihVarDecl rest1 d rest2 heq4 (by simpa using hm)
              split at h
              · exact Option.noConfusion h
              · rename_i o2 k2 q heq5
                obtain ⟨ds, rest3⟩ := q
                simp only [Option.some.injEq, Prod.mk.injEq] at h
                obtain ⟨-, rfl⟩ := h
                exact ihVarDeclsRest [d] rest2 ds rest3 heq5 h2
          · rename_i rest1 h01 h02
            split at h
            · rename_i e rest2 heq4
              simp only [Option.some.injEq, Prod.mk.injEq] at h
              obtain ⟨-, rfl⟩ := h
              exact ihExpr rest1 e rest2 heq4 (by simpa using hm)
            · simp only [Option.some.injEq, Prod.mk.injEq] at h
              obtain ⟨-, rfl⟩ := h
              simpa using hm
          · simp only [Option.some.injEq, Prod.mk.injEq] at h
            obtain ⟨-, rfl⟩ := h
            simpa using hm
          · simp only [Option.some.injEq, Prod.mk.injEq] at h
            obtain ⟨-, rfl⟩ := h
            simpa using hm
          · simp only [Option.map_eq_some'] at h
            obtain ⟨⟨e, r⟩, heq4, h⟩ := h
            simp only [Prod.mk.injEq] at h
            obtain ⟨-, rfl⟩ := h
            exact ihExpr _ e r heq4 hm
    · intro ts x rest h hm
      rw [parseIfStmt.eq_def] at h
      split at h
      · exact Option.noConfusion h
      · rename_i tz d1 d2 fx heq
        obtain rfl : f = fx := by omega
        split at h
        · rename_i rest1
          dsimp only [Bind.bind, Option.bind] at h
          split at h
          · exact Option.noConfusion h
          · rename_i o1 k1 p heqM
            obtain ⟨c, r2⟩ := p
            dsimp only at h
            have h2 : Tok.Error ∈ r2 := by
              split at heqM
              · split at heqM
                · rename_i e r3 heqE
                  simp only [Option.some.injEq, Prod.mk.injEq] at heqM
                  obtain ⟨-, rfl⟩ := heqM
                  have := ihExpr _ _ _ heqE (by simpa using hm)
                  simpa using this
                · exact ihExpr _ _ _ heqM (by simpa using hm)
              · exact ihExpr _ _ _ heqM (by simpa using hm)
            split at h
            · exact Option.noConfusion h
            · rename_i o2 k2 q heqB
              obtain ⟨thenS, rest4⟩ := q
              dsimp only at h
              have h3 : Tok.Error ∈ rest4 := by
                split at heqB
                · rename_i r3
                  exact ihIfBody _ _ _ heqB (skipNewlines_mem r3 (by simpa using h2))
                · exact ihIfBody _ _ _ heqB (skipNewlines_mem r2 h2)
              split at h
              · rename_i rest5 r6 heqR5
                have h5 : Tok.Error ∈ Tok.Else :: r6 := by
                  rw [← heqR5]
                  split
                  · rename_i r7
                    exact skipNewlines_mem r7 (by simpa using h3)
                  · exact skipNewlines_mem rest4 h3
                have h6 : Tok.Error ∈ r6 := by simpa using h5
                split at h
                · rename_i elseS rest7 heqE2
                  have h7 : Tok.Error ∈ rest7 := ihIfBody _ _ _ heqE2 (skipNewlines_mem r6 h6)
                  simp only [Option.some.injEq, Prod.mk.injEq] at h
                  obtain ⟨-, rfl⟩ := h
                  split
                  · rename_i r8
                    simpa using h7
                  · exact h7
                · simp only [Option.some.injEq, Prod.mk.injEq] at h
                  obtain ⟨-, rfl⟩ := h
                  split
                  · rename_i r8
                    exact skipNewlines_mem r8 (by simpa using h3)
                  · exact skipNewlines_mem rest4 h3
              · simp only [Option.some.injEq, Prod.mk.injEq] at h
                obtain ⟨-, rfl⟩ := h
                split
                · rename_i r8 hdead
                  exact skipNewlines_mem r8 (by simpa using h3)
                · exact skipNewlines_mem rest4 h3
        · exact Option.noConfusion h
    · intro ts x rest h hm
      rw [parseReturnStmt.eq_def] at h
      split at h
      · exact Option.noConfusion h
      · rename_i tz d1 d2 fx heq
        obtain rfl : f = fx := by omega
        split at h
        · rename_i rest1
          split at h
          · rename_i e rest2 heq2
            simp only [Option.map_eq_some'] at h
            obtain ⟨r2, heq3, h⟩ := h
            simp only [Prod.mk.injEq] at h
            obtain ⟨-, rfl⟩ := h
            exact parseTerminator_mem rest2 r2 heq3 (ihExpr rest1 e rest2 heq2 (by simpa using hm))
          · simp only [Option.map_eq_some'] at h
            obtain ⟨r2, heq3, h⟩ := h
            simp only [Prod.mk.injEq] at h
            obtain ⟨-, rfl⟩ := h
            exact parseTerminator_mem rest1 r2 heq3 (by simpa using hm)
        · exact Option.noConfusion h
    · intro ts x rest h hm
      rw [parseRepeatStmt.eq_def] at h
      split at h
      · exact Option.noConfusion h
      · rename_i tz d1 d2 fx heq
        obtain rfl : f = fx := by omega
        split at h
        · rename_i rest1
          dsimp only [Bind.bind, Option.bind] at h
          split at h
          · exact Option.noConfusion h
          · rename_i o1 k1 p heq2
            obtain ⟨count, rest2⟩ := p
            dsimp only at h
            have h2 : Tok.Error ∈ rest2 := ihExpr rest1 count rest2 heq2 (by simpa using hm)
            split at h
            · rename_i rest3
              split at h
              · exact Option.noConfusion h
              · rename_i o2 k2 q heq3
                obtain ⟨body, rest4⟩ := q
                simp only [Option.some.injEq, Prod.mk.injEq] at h
                obtain ⟨-, rfl⟩ := h
                exact ihStmt _ body rest4 heq3 (skipNewlines_mem rest3 (by simpa using h2))
            · exact Option.noConfusion h
        · exact Option.noConfusion h
    · intro ts x rest h hm
      rw [parseWhileStmt.eq_def] at h
      split at h
      · exact Option.noConfusion h
      · rename_i tz d1 d2 fx heq
        obtain rfl : f = fx := by omega
        split at h
        · rename_i rest1
          dsimp only [Bind.bind, Option.bind] at h
          split at h
          · exact Option.noConfusion h
          · rename_i o1 k1 p heqM
            obtain ⟨c, r2⟩ := p
            dsimp only at h
            have h2 : Tok.Error ∈ r2 := by
              split at heqM
              · split at heqM
                · rename_i e r3 heqE
                  simp only [Option.some.injEq, Prod.mk.injEq] at heqM
                  obtain ⟨-, rfl⟩ := heqM
                  have := ihExpr _ _ _ heqE (by simpa using hm)
                  simpa using this
                · exact ihExpr _ _ _ heqM (by simpa using hm)
              · exact ihExpr _ _ _ heqM (by simpa using hm)
            split at h
            · exact Option.noConfusion h
            · rename_i o2 k2 q heqS
              obtain ⟨body, r3⟩ := q
              simp only [Option.some.injEq, Prod.mk.injEq] at h
              obtain ⟨-, rfl⟩ := h
              exact ihStmt _ body r3 heqS (skipNewlines_mem r2 h2)
        · exact Option.noConfusion h
    · intro ts x rest h hm
      rw [parseDoUntilStmt.eq_def] at h
      split at h
      · exact Option.noConfusion h
      · rename_i tz d1 d2 fx heq
        obtain rfl : f = fx := by omega
        split at h
        · rename_i rest1
          dsimp only [Bind.bind, Option.bind] at h
          split at h
          · exact Option.noConfusion h
          · rename_i o1 k1 p heq2
            obtain ⟨body, rest2⟩ := p
            dsimp only at h
            have h2 : Tok.Error ∈ rest2 :=
              ihStmt _ body rest2 heq2 (skipNewlines_mem rest1 (by simpa using hm))
            split at h
            · rename_i rest3 heq3
              have h3 : Tok.Error ∈ rest3 := by
                have := skipNewlines_mem rest2 h2
                rw [heq3] at this
                simpa using this
              split at h
              · exact Option.noConfusion h
              · rename_i o2 k2 q heq4
                obtain ⟨cond, rest4⟩ := q
                dsimp only at h
                have h4 : Tok.Error ∈ rest4 := ihExpr rest3 cond rest4 heq4 h3
                split at h
                · rename_i rest5
                  split at h
                  · exact Option.noConfusion h
                  · rename_i o3 k3 rest6 heq5
                    simp only [Option.some.injEq, Prod.mk.injEq] at h
                    obtain ⟨-, rfl⟩ := h
                    exact parseTerminator_mem rest5 rest6 heq5 (by simpa using h4)
                · exact Option.noConfusion h
            · exact Option.noConfusion h
        · exact Option.noConfusion h
    · intro ts x rest h hm
      rw [parseForStmt_succ] at h
      split at h
      · rename_i rest1
        dsimp only [Bind.bind, Option.bind] at h
        split at h
        · exact Option.noConfusion h
        · rename_i o1 k1 p heqM
          obtain ⟨initS, rest2⟩ := p
          dsimp only at h
          have h2 : Tok.Error ∈ rest2 := by
            split at heqM
            · split at heqM
              · rename_i d r3 heqV
                simp only [Option.some.injEq, Prod.mk.injEq] at heqM
                obtain ⟨-, rfl⟩ := heqM
                exact ihVarDecl _ _ _ heqV (by simpa using hm)
              · split at heqM
                · rename_i e r3 heqE
                  simp only [Option.some.injEq, Prod.mk.injEq] at heqM
                  obtain ⟨-, rfl⟩ := heqM
                  exact ihExpr _ _ _ heqE (by simpa using hm)
                · split at heqM
                  · rename_i d4 r3 heqBad
                    exact absurd heqBad (by simp)
                  · exact Option.noConfusion heqM
            · split at heqM
              · rename_i e r3 heqE
                simp only [Option.some.injEq, Prod.mk.injEq] at heqM
                obtain ⟨-, rfl⟩ := heqM
                exact ihExpr _ _ _ heqE (by simpa using hm)
              · split at heqM
                · simp only [Option.some.injEq, Prod.mk.injEq] at heqM
                  obtain ⟨-, rfl⟩ := heqM
                  simpa using hm
                · exact Option.noConfusion heqM
          have h3 : Tok.Error ∈ (match rest2 with | Tok.Semicolon :: r => r | x => rest2) := by
            split
            · rename_i r
              simpa using h2
            · exact h2
          split at h
          · rename_i d4 r5 heqC
            have h5 : Tok.Error ∈ Tok.Semicolon :: r5 := by
              rw [← heqC]
              split
              · rename_i e r heqE2
                simpa using ihExpr _ e r heqE2 h3
              · simpa using h3
            have h5b : Tok.Error ∈ r5 := by simpa using h5
            split at h
            · rename_i d6 rest7 heqU
              have h6 : Tok.Error ∈ Tok.RightParen :: rest7 := by
                rw [← heqU]
                split
                · rename_i e r heqE3
                  simpa using ihExpr _ e r heqE3 h5b
                · simpa using h5b
              have h7 : Tok.Error ∈ rest7 := by simpa using h6
              split at h
              · exact Option.noConfusion h
              · rename_i o2 k2 q heqS
                obtain ⟨body, rest8⟩ := q
                dsimp only at h
                simp only [Option.some.injEq, Prod.mk.injEq] at h
                obtain ⟨-, rfl⟩ := h
                exact ihStmt _ body rest8 heqS (skipNewlines_mem rest7 h7)
            · exact Option.noConfusion h
          · exact Option.noConfusion h
      · exact Option.noConfusion h
    · intro ts x rest h hm
      rw [parseStmt_succ] at h
      split at h
      · rename_i p heq2
        obtain ⟨st, r⟩ := p
        simp only [Option.some.injEq, Prod.mk.injEq] at h
        obtain ⟨-, rfl⟩ := h
        exact ihExprStmt ts st r heq2 hm
      · split at h
        · rename_i p heq3
          obtain ⟨st, r⟩ := p
          simp only [Option.some.injEq, Prod.mk.injEq] at h
          obtain ⟨-, rfl⟩ := h
          exact ihVarStmt ts st r heq3 hm
        · split at h
          · rename_i st r heq4
            simp only [Option.some.injEq, Prod.mk.injEq] at h
            obtain ⟨-, rfl⟩ := h
            exact ihIfStmt ts st r heq4 hm
          · split at h
            · rename_i p heq5
              obtain ⟨st, r⟩ := p
              simp only [Option.some.injEq, Prod.mk.injEq] at h
              obtain ⟨-, rfl⟩ := h
              exact ihReturn ts st r heq5 hm
            · split at h
              · rename_i rest1 h01 h02 h03 h04
                split at h
                · rename_i r5 heq6
                  simp only [Option.some.injEq, Prod.mk.injEq] at h
                  obtain ⟨-, rfl⟩ := h
                  exact parseTerminator_mem rest1 r5 heq6 (by simpa using hm)
                · exact ihStmtTail _ x rest h hm
              · rename_i rest1 h01 h02 h03 h04
                split at h
                · rename_i r5 heq6
                  simp only [Option.some.injEq, Prod.mk.injEq] at h
                  obtain ⟨-, rfl⟩ := h
                  exact parseTerminator_mem rest1 r5 heq6 (by simpa using hm)
                · exact ihStmtTail _ x rest h hm
              · exact ihStmtTail _ x rest h hm
    · intro ts x rest h hm
      rw [parseStmtTail.eq_def] at h
      split at h
      · exact Option.noConfusion h
      · rename_i tz d1 d2 fx heq
        obtain rfl : f = fx := by omega
        split at h
        · rename_i p heq2
          obtain ⟨st, r⟩ := p
          simp only [Option.some.injEq, Prod.mk.injEq] at h
          obtain ⟨-, rfl⟩ := h
          exact ihRepeat tz st r heq2 hm
        · split at h
          · rename_i p heq3
            obtain ⟨st, r⟩ := p
            simp only [Option.some.injEq, Prod.mk.injEq] at h
            obtain ⟨-, rfl⟩ := h
            exact ihWhile tz st r heq3 hm
          · split at h
            · rename_i p heq4
              obtain ⟨st, r⟩ := p
              simp only [Option.some.injEq, Prod.mk.injEq] at h
              obtain ⟨-, rfl⟩ := h
              exact ihDoUntil tz st r heq4 hm
            · split at h
              · rename_i p heq5
                obtain ⟨st, r⟩ := p
                simp only [Option.some.injEq, Prod.mk.injEq] at h
                obtain ⟨-, rfl⟩ := h
                exact ihFor tz st r heq5 hm
              · split at h
                · rename_i b r heq6
                  simp only [Option.some.injEq, Prod.mk.injEq] at h
                  obtain ⟨-, rfl⟩ := h
                  exact ihBrace tz b r heq6 hm
                · exact Option.noConfusion h

/-- `parseStmtSeq` preserves membership of `Error` (projection of `parseMem`). -/
theorem parseStmtSeq_mem (f : Nat) : ∀ acc, KeepsErr (parseStmtSeq f acc) := by
  obtain ⟨-, -, -, -, -, -, -, -, -, -, -, -, -, -, -, -, -, -, -, -, -, -, -, -, -, -, -, -,
    -, -, -, -, hx, -, -, -, -, -, -, -, -, -⟩ := parseMem f
  exact hx

/-- `parseStmt` preserves membership of `Error` (projection of `parseMem`). -/
theorem parseStmt_mem (f : Nat) : KeepsErr (parseStmt f) := by
  obtain ⟨-, -, -, -, -, -, -, -, -, -, -, -, -, -, -, -, -, -, -, -, -, -, -, -, -, -, -, -,
    -, -, -, -, -, -, -, -, -, -, -, -, hx, -⟩ := parseMem f
  exact hx

/-- `parseFunction` preserves membership of `Error`. -/
theorem parseFunction_mem (f : Nat) (ts : List Tok) (x : TopLevel) (rest : List Tok)
    (h : parseFunction f ts = some (x, rest)) (hm : Tok.Error ∈ ts) : Tok.Error ∈ rest := by
  rw [parseFunction.eq_def] at h
  split at h
  · rename_i name rest1
    dsimp only [Bind.bind, Option.bind] at h
    split at h
    · exact Option.noConfusion h
    · rename_i o1 k1 p heqP
      obtain ⟨params, rest2⟩ := p
      dsimp only at h
      have h2 : Tok.Error ∈ rest2 := parseParams_mem rest1 (params, rest2) heqP (by simpa using hm)
      split at h
      · rename_i rest3
        split at h
        · exact Option.noConfusion h
        · rename_i o2 k2 q heqS
          obtain ⟨body, rest4⟩ := q
          dsimp only at h
          have h3 : Tok.Error ∈ rest4 := parseStmtSeq_mem f [] rest3 body rest4 heqS (by simpa using h2)
          split at h
          · rename_i rest5
            simp only [Option.some.injEq, Prod.mk.injEq] at h
            obtain ⟨-, rfl⟩ := h
            simpa using h3
          · exact Option.noConfusion h
      · exact Option.noConfusion h
  · exact Option.noConfusion h

/-- `parseTopLevel` preserves membership of `Error`. -/
theorem parseTopLevel_mem (f : Nat) (ts : List Tok) (x : Option TopLevel) (rest : List Tok)
    (h : parseTopLevel f ts = some (x, rest)) (hm : Tok.Error ∈ ts) : Tok.Error ∈ rest := by
  rw [parseTopLevel.eq_def] at h
  split at h
  · rename_i tl r heqF
    simp only [Option.some.injEq, Prod.mk.injEq] at h
    obtain ⟨-, rfl⟩ := h
    exact parseFunction_mem f ts tl r heqF hm
  · split at h
    · rename_i st r heqS
      simp only [Option.some.injEq, Prod.mk.injEq] at h
      obtain ⟨-, rfl⟩ := h
      exact parseStmt_mem f ts st r heqS hm
    · exact Option.noConfusion h

/-- One-step unfolding of the recovery loop on a nonempty stream. -/
theorem parseProgramAux_succ_cons (f : Nat) (t : Tok) (ts : List Tok) :
    parseProgramAux (f + 1) (t :: ts) =
      (match parseTopLevel f (t :: ts) with
        | some (item, rest) =>
          let (items, errs) := parseProgramAux f rest
          (item.toList ++ items, errs)
        | none =>
          let (items, errs) := parseProgramAux f (t :: ts).tail
          (items, errs + 1)) := rfl

/-- With an `Error` token in the stream, the recovery loop always records at
least one parse error. -/
theorem parseProgramAux_err : ∀ (f : Nat) (ts : List Tok), Tok.Error ∈ ts →
    (parseProgramAux f ts).2 ≠ 0 := by
  intro f
  induction f with
  | zero => intro ts hm; simp [parseProgramAux]
  | succ f ih =>
    intro ts hm
    cases ts with
    | nil => simp at hm
    | cons t ts1 =>
      rw [parseProgramAux_succ_cons]
      cases hT : parseTopLevel f (t :: ts1) with
      | some p =>
        obtain ⟨item, r⟩ := p
        dsimp only
        exact ih r (parseTopLevel_mem f _ item r hT hm)
      | none =>
        dsimp only
        simp

/-- With an `Error` token in the stream, the parse as a whole fails. -/
theorem parseProgram_err (ts : List Tok) (hm : Tok.Error ∈ ts) :
    parseProgram ts = Except.error () := by
  have hne := parseProgramAux_err (100 * (ts.length + 1)) ts hm
  unfold parseProgram
  split
  · rename_i items errs heqPA
    rw [heqPA] at hne
    simp only at hne
    rw [if_neg hne]

/-- C8: the lexing stage is total and turns any position where no skip rule
and no token rule matches into an `Error` token spanning that character;
and a stream containing an `Error` token always makes the parser return a
parse error (the recovery loop records an error and continues), never a
crash — witnessed end-to-end on the source `@`. -/
theorem C8_error_token_surfaced :
    (∀ (fuel off : Nat) (c : Char) (rest : Src),
      skipLen (c :: rest) = none → nextToken (c :: rest) = none →
      lexAux (fuel + 1) off (c :: rest) = (Tok.Error, off, off + 1) :: lexAux fuel (off + 1) rest)
    ∧ (∀ ts : List Tok, Tok.Error ∈ ts → parseProgram ts = Except.error ())
    ∧ lexAll "@".toList = [(Tok.Error, 0, 1)]
    ∧ parse_source_code "@" = Except.error () := by
  refine ⟨?_, ?_, ?_, ?_⟩
  · intro fuel off c rest h1 h2
    rw [lexAux, h1, h2]
  · exact parseProgram_err
  · rfl
  · rw [parse_source_code, show lexTokens "@" = [Tok.Error] from rfl]
    exact parseProgram_err _ (by simp)

/-- Witness for C8: the lexer's `Error` fallback at `@`, and the parser's
failure on the one-token stream `[Error]`. -/
theorem C8_error_token_surfaced_witness :
    lexAux 1 0 ['@'] = (Tok.Error, 0, 1) :: lexAux 0 1 [] ∧
    parseProgram [Tok.Error] = Except.error () :=
  ⟨C8_error_token_surfaced.1 0 0 '@' [] (by rfl) (by rfl),
   C8_error_token_surfaced.2.1 [Tok.Error] (by simp)⟩

end Col
